import Mathlib

/-!
Verification development for the HERMES-CXL prototype
(`src/app/cxl_system.cpp`, `src/app/driver/cxl_fpga_driver.c`).

The C++/C sources are shallowly embedded below.  Machine integers
(`size_t`, `uint64_t`, `uint32_t`) are modelled as `Nat` together with
explicit reductions modulo `2^64` exactly where the C code can wrap:
additions and subtractions of `size_t` values, and the bit-mask
alignment computation `(x + a - 1) & ~(a - 1)` (in 64-bit two's
complement, `~(a-1) = 2^64 - a` for `1 ≤ a ≤ 2^64`).
-/

/-- `x mod 2^64`, the value of a wrapped 64-bit computation. -/
def m64 (x : Nat) : Nat := x % 2 ^ 64

/-- 64-bit unsigned subtraction `a - b` (two's complement wraparound),
valid for `b ≤ 2^64`. -/
def sub64 (a b : Nat) : Nat := (a + (2 ^ 64 - b)) % 2 ^ 64

/-- The C expression `(x + alignment - 1) & ~(alignment - 1)` evaluated in
64-bit unsigned arithmetic, for `alignment ≥ 1`: the bit complement of
`alignment - 1` in 64 bits is `2^64 - alignment`. -/
def alignC (x a : Nat) : Nat := Nat.land ((x + (a - 1)) % 2 ^ 64) ((2 ^ 64 - a) % 2 ^ 64)

/-! ## Region (`CXLMemoryManager`)

`cxl_system.cpp` lines 24-124.  The mapped byte buffer is modelled as a
total function `Nat → Nat` (byte values at offsets); `memcpy` becomes a
pointwise update.  The `initialized` flag is the spec's `ready`. -/

/-- Which check of `write_data`/`read_data` fired, distinguishing the
source's two failure messages (not-initialized vs out-of-bounds). -/
inductive RWResult : Type
  | ok : RWResult
  | notReady : RWResult
  | outOfBounds : RWResult
deriving DecidableEq

structure CRegion where
  region_size : Nat
  ready : Bool
  data : Nat → Nat

/-- A `CXLMemoryManager` fresh from its constructor: `region_size = 0`,
flag false. -/
def mkRegion : CRegion := ⟨0, false, fun _ => 0⟩

/-- Successful `initialize(device_path, size)`: the mapping collaborator
produced a buffer with contents `d`; the flag becomes true. -/
def acquireRegion (size : Nat) (d : Nat → Nat) : CRegion := ⟨size, true, d⟩

/-- `cleanup()`: unmaps and clears the flag (`region_size` is not reset). -/
def cleanupRegion (r : CRegion) : CRegion := ⟨r.region_size, false, r.data⟩

/-- `CXLMemoryManager::write_data(offset, data, length)`.  The bounds
check compares the wrapped `size_t` sum `offset + length` against
`region_size`; on success `memcpy` stores `length` bytes of `src` at
`offset`. -/
def write_data (r : CRegion) (offset : Nat) (src : Nat → Nat) (length : Nat) :
    RWResult × CRegion :=
  if r.ready = false then (RWResult.notReady, r)
  else if r.region_size < m64 (offset + length) then (RWResult.outOfBounds, r)
  else (RWResult.ok,
    ⟨r.region_size, r.ready,
      fun i => if offset ≤ i ∧ i < offset + length then src (i - offset) else r.data i⟩)

/-- `CXLMemoryManager::read_data(offset, buffer, length)`: same checks;
on success the out-buffer receives the `length` bytes starting at
`offset`. -/
def read_data (r : CRegion) (offset length : Nat) : RWResult × List Nat :=
  if r.ready = false then (RWResult.notReady, [])
  else if r.region_size < m64 (offset + length) then (RWResult.outOfBounds, [])
  else (RWResult.ok, (List.range length).map fun i => r.data (offset + i))

/-! ## 64-bit arithmetic lemmas -/

theorem m64_eq_of_lt {x : Nat} (h : x < 2 ^ 64) : m64 x = x := Nat.mod_eq_of_lt h

theorem m64_lt (x : Nat) : m64 x < 2 ^ 64 := Nat.mod_lt _ (by norm_num)

theorem sub64_exact {a b : Nat} (hba : b ≤ a) (ha : a < 2 ^ 64) :
    sub64 a b = a - b := by
  have hb : b < 2 ^ 64 := Nat.lt_of_le_of_lt hba ha
  have h1 : a + (2 ^ 64 - b) = 2 ^ 64 + (a - b) := by omega
  rw [sub64, h1, Nat.add_mod_left, Nat.mod_eq_of_lt (by omega)]

theorem sub64_of_lt {a b : Nat} (hab : a < b) (hb : b ≤ 2 ^ 64) :
    sub64 a b = a + (2 ^ 64 - b) := by
  rw [sub64, Nat.mod_eq_of_lt (by omega)]

/-- Two's-complement masking: for `t < 2^64`, the 64-bit bitwise-and of `t`
with `~(2^k - 1) = 2^64 - 2^k` clears the low `k` bits of `t`. -/
theorem land_mask_eq {k : Nat} (hk : k ≤ 64) {t : Nat} (ht : t < 2 ^ 64) :
    Nat.land t (2 ^ 64 - 2 ^ k) = t - t % 2 ^ k := by
  have hmask : 2 ^ 64 - 2 ^ k = 2 ^ k * (2 ^ (64 - k) - 1) := by
    rw [Nat.mul_sub_one, ← Nat.pow_add]
    congr 2
    omega
  have hrhs : t - t % 2 ^ k = 2 ^ k * (t / 2 ^ k) := by
    have := Nat.div_add_mod t (2 ^ k)
    omega
  have hdivbit : ∀ j, Nat.testBit (t / 2 ^ k) j = Nat.testBit t (k + j) := by
    intro j
    rw [← Nat.shiftRight_eq_div_pow, Nat.testBit_shiftRight]
  apply Nat.eq_of_testBit_eq
  intro i
  show Nat.testBit (t &&& (2 ^ 64 - 2 ^ k)) i = _
  rw [Nat.testBit_and, hmask, hrhs, Nat.testBit_mul_pow_two, Nat.testBit_mul_pow_two,
    Nat.testBit_two_pow_sub_one, hdivbit]
  rcases Nat.lt_or_ge i k with hik | hik
  · simp [Nat.not_le_of_lt hik]
  · have hki : k + (i - k) = i := by omega
    rw [hki]
    rcases Nat.lt_or_ge i 64 with h64 | h64
    · simp [hik, Nat.lt_of_lt_of_le (by omega : i - k < 64 - k) (le_refl _)]
    · have : Nat.testBit t i = false :=
        Nat.testBit_lt_two_pow (Nat.lt_of_lt_of_le ht (Nat.pow_le_pow_right (by omega) h64))
      simp [this]

theorem alignC_eq {x k : Nat} (hk : k < 64) :
    alignC x (2 ^ k) =
      (x + (2 ^ k - 1)) % 2 ^ 64 - (x + (2 ^ k - 1)) % 2 ^ 64 % 2 ^ k := by
  have h1 : (2 ^ 64 - 2 ^ k) % 2 ^ 64 = 2 ^ 64 - 2 ^ k := by
    apply Nat.mod_eq_of_lt
    have : 0 < 2 ^ k := Nat.pos_pow_of_pos k (by omega)
    omega
  rw [alignC, h1, land_mask_eq (Nat.le_of_lt hk) (Nat.mod_lt _ (by norm_num))]

theorem alignC_mod {x k : Nat} (hk : k < 64) : alignC x (2 ^ k) % 2 ^ k = 0 := by
  rw [alignC_eq hk]
  have := Nat.div_add_mod ((x + (2 ^ k - 1)) % 2 ^ 64) (2 ^ k)
  have h2 : (x + (2 ^ k - 1)) % 2 ^ 64 - (x + (2 ^ k - 1)) % 2 ^ 64 % 2 ^ k
      = 2 ^ k * ((x + (2 ^ k - 1)) % 2 ^ 64 / 2 ^ k) := by omega
  rw [h2, Nat.mul_mod_right]

theorem alignC_lt {x k : Nat} (hk : k < 64) : alignC x (2 ^ k) < 2 ^ 64 := by
  rw [alignC_eq hk]
  have := Nat.mod_lt (x + (2 ^ k - 1)) (show 0 < 2 ^ 64 by norm_num)
  omega

/-- A multiple of `2^k` that is below `2^64` is at most `2^64 - 2^k`. -/
theorem le_of_mod_eq_zero_lt {v k : Nat} (hk : k < 64) (hv : v % 2 ^ k = 0)
    (hlt : v < 2 ^ 64) : v ≤ 2 ^ 64 - 2 ^ k := by
  have hdvd : 2 ^ k ∣ v := Nat.dvd_of_mod_eq_zero hv
  have hdvd2 : (2 ^ k : Nat) ∣ 2 ^ 64 := pow_dvd_pow 2 (Nat.le_of_lt hk)
  rcases hdvd with ⟨q, hq⟩
  rcases hdvd2 with ⟨Q, hQ⟩
  subst hq
  have hqQ : q < Q := by
    by_contra hcon
    push_neg at hcon
    exact absurd (Nat.mul_le_mul_left (2 ^ k) hcon) (by omega)
  have h1 : 2 ^ k * q + 2 ^ k ≤ 2 ^ k * Q := by
    calc 2 ^ k * q + 2 ^ k = 2 ^ k * (q + 1) := by ring
    _ ≤ 2 ^ k * Q := Nat.mul_le_mul_left _ (by omega)
  omega

theorem alignC_le_max {x k : Nat} (hk : k < 64) : alignC x (2 ^ k) ≤ 2 ^ 64 - 2 ^ k :=
  le_of_mod_eq_zero_lt hk (alignC_mod hk) (alignC_lt hk)

/-- When `x + 2^k - 1` does not wrap, `alignC` is the round-up of `x` to a
multiple of `2^k`. -/
theorem alignC_no_wrap {x k : Nat} (hk : k < 64) (h : x + (2 ^ k - 1) < 2 ^ 64) :
    x ≤ alignC x (2 ^ k) ∧ alignC x (2 ^ k) < x + 2 ^ k := by
  have hkpos : 0 < 2 ^ k := Nat.pos_pow_of_pos k (by omega)
  rw [alignC_eq hk, Nat.mod_eq_of_lt h]
  have hm := Nat.mod_lt (x + (2 ^ k - 1)) hkpos
  constructor
  · omega
  · omega

/-! ## Block allocator (`CXLAllocator`, `cxl_system.cpp` lines 126-243)

Free and allocated extents are `(offset, size)` pairs held in
`std::vector`s; vector `erase` keeps the order of the remaining
elements and `push_back` appends. -/

abbrev Block := Nat × Nat

structure AState where
  free : List Block
  alloc : List Block
deriving DecidableEq

/-- The allocator's constructor state: one free block covering the whole
region (`free_blocks.push_back({0, region_size})`). -/
def initState (N : Nat) : AState := ⟨[(0, N)], []⟩

/-- The first-fit test `block_size >= size + alignment_waste` of
`CXLAllocator::allocate`, with `alignment_waste = aligned_offset -
block_offset` computed in wrapping `size_t` arithmetic. -/
def fitsB (size' a : Nat) (b : Block) : Prop :=
  m64 (size' + sub64 (alignC b.1 a) b.1) ≤ b.2

instance fitsB_dec (size' a : Nat) (b : Block) : Decidable (fitsB size' a b) := by
  unfold fitsB
  infer_instance

/-- The free blocks pushed back after a successful fit: the pre-alignment
gap `{block_offset, alignment_waste}` when the waste is nonzero, then the
residue `{aligned_offset + size, block_size - size - alignment_waste}`
when the block is strictly larger than `size + alignment_waste`. -/
def wasteRem (size' a : Nat) (b : Block) : List Block :=
  (if 0 < sub64 (alignC b.1 a) b.1 then [(b.1, sub64 (alignC b.1 a) b.1)] else [])
    ++ (if m64 (size' + sub64 (alignC b.1 a) b.1) < b.2 then
          [(m64 (alignC b.1 a + size'), sub64 (sub64 b.2 size') (sub64 (alignC b.1 a) b.1))]
        else [])

/-- The scan of `free_blocks` in storage order: the first fitting block is
erased and replaced (at the back) by its unused parts; the aligned offset
is returned. -/
def allocScan (size' a : Nat) : List Block → Option (Nat × List Block)
  | [] => none
  | b :: rest =>
    if fitsB size' a b then some (alignC b.1 a, rest ++ wasteRem size' a b)
    else
      match allocScan size' a rest with
      | none => none
      | some (o, l) => some (o, b :: l)

/-- `CXLAllocator::allocate(size, alignment)` over a region of `N` bytes:
the request is first rounded with `size = (size + alignment - 1) &
~(alignment - 1)`; when a block fits, the lists are updated and the
function returns `get_direct_pointer(aligned_offset)` — which (for an
initialized manager, cxl_system.cpp lines 113-118) is null exactly when
`aligned_offset >= region_size`, so that case returns `none` although
`allocated_blocks` has already been extended; when no block fits,
`nullptr` is returned with the lists untouched. -/
def cxlAllocate (N : Nat) (s : AState) (size a : Nat) : Option Nat × AState :=
  match allocScan (alignC size a) a s.free with
  | none => (none, s)
  | some (o, fl) =>
    (if o < N then some o else none, ⟨fl, s.alloc ++ [(o, alignC size a)]⟩)

/-- Lexicographic comparison of `std::pair<size_t,size_t>`, as used by
`std::sort` on the free list. -/
def lexLe (b c : Block) : Prop := b.1 < c.1 ∨ (b.1 = c.1 ∧ b.2 ≤ c.2)

instance lexLe_dec (b c : Block) : Decidable (lexLe b c) := by
  unfold lexLe
  infer_instance

def insertBlock (b : Block) : List Block → List Block
  | [] => [b]
  | c :: rest => if lexLe b c then b :: c :: rest else c :: insertBlock b rest

/-- `std::sort(free_blocks.begin(), free_blocks.end())`: pairs are totally
ordered lexicographically, so the sorted permutation is unique and an
insertion sort computes it. -/
def sortBlocks : List Block → List Block
  | [] => []
  | b :: rest => insertBlock b (sortBlocks rest)

/-- The single left-to-right coalescing pass of `CXLAllocator::free`: while
`free_blocks[i].first + free_blocks[i].second == free_blocks[i+1].first`
(a wrapping `size_t` sum), merge `i+1` into `i` and erase it, otherwise
advance `i`. -/
def coalesceBlocks : List Block → List Block
  | [] => []
  | [b] => [b]
  | b :: c :: rest =>
    if m64 (b.1 + b.2) = c.1 then coalesceBlocks ((b.1, m64 (b.2 + c.2)) :: rest)
    else b :: coalesceBlocks (c :: rest)
termination_by l => l.length

/-- The scan of `allocated_blocks` in `CXLAllocator::free`: remove the
first extent whose start offset matches exactly, returning its size. -/
def removeAlloc (off : Nat) : List Block → Option (Nat × List Block)
  | [] => none
  | b :: rest =>
    if b.1 = off then some (b.2, rest)
    else
      match removeAlloc off rest with
      | none => none
      | some (sz, l) => some (sz, b :: l)

/-- `CXLAllocator::free(ptr)` at offset `off`: on an exact match the extent
moves to the free list, which is then sorted and coalesced; otherwise
`false` is returned and the lists are untouched. -/
def cxlFree (s : AState) (off : Nat) : Bool × AState :=
  match removeAlloc off s.alloc with
  | none => (false, s)
  | some (sz, al) => (true, ⟨coalesceBlocks (sortBlocks (s.free ++ [(off, sz)])), al⟩)

/-- Sum of block sizes as accumulated by `CXLAllocator::get_stats` (a
wrapping `size_t` accumulator). -/
def statSum (l : List Block) : Nat := l.foldl (fun acc b => m64 (acc + b.2)) 0

/-- `CXLAllocator::get_stats(total, used, free)`. -/
def getStats (N : Nat) (s : AState) : Nat × Nat × Nat :=
  (N, statSum s.alloc, statSum s.free)

/-- Exact (mathematical) sum of block sizes. -/
def bSum (l : List Block) : Nat := (l.map Prod.snd).sum

/-- States of a `CXLAllocator` over a region of `N` bytes reachable by any
sequence of `allocate`/`free` calls, with power-of-two alignments (the
spec's numeric contract for callers).  The state after a call is tracked
whether or not the call succeeded: a failed scan and a failed release
leave the lists untouched, while a fitting allocation whose pointer comes
back null has still mutated them. -/
inductive ReachA (N : Nat) : AState → Prop
  | init : ReachA N (initState N)
  | step_alloc (s : AState) (size k : Nat) :
      ReachA N s → k < 64 → ReachA N (cxlAllocate N s size (2 ^ k)).2
  | step_free (s : AState) (off : Nat) :
      ReachA N s → ReachA N (cxlFree s off).2

/-- Reachable states of an allocator over a nonempty region in which every
`allocate` call requests a positive size whose rounding does not wrap
(`size + alignment - 1 < 2^64`). -/
inductive PosReachA (N : Nat) : AState → Prop
  | init : 0 < N → PosReachA N (initState N)
  | step_alloc (s : AState) (size k : Nat) :
      PosReachA N s → k < 64 → 0 < size → size + (2 ^ k - 1) < 2 ^ 64 →
      PosReachA N (cxlAllocate N s size (2 ^ k)).2
  | step_free (s : AState) (off : Nat) :
      PosReachA N s → PosReachA N (cxlFree s off).2


/-! ## Allocator invariants -/

/-- Every block lies inside the region `[0, N)`. -/
def blocksBounded (N : Nat) (l : List Block) : Prop := ∀ b ∈ l, b.1 + b.2 ≤ N

/-- Two blocks do not overlap unless one of them is empty. -/
def pdisj (b c : Block) : Prop :=
  b.2 = 0 ∨ c.2 = 0 ∨ b.1 + b.2 ≤ c.1 ∨ c.1 + c.2 ≤ b.1

theorem pdisj_symm : ∀ {b c : Block}, pdisj b c → pdisj c b := by
  intro b c h
  rcases h with h | h | h | h
  · exact Or.inr (Or.inl h)
  · exact Or.inl h
  · exact Or.inr (Or.inr (Or.inr h))
  · exact Or.inr (Or.inr (Or.inl h))

/-- `p` occupies a sub-range of `b`. -/
def subBlock (p b : Block) : Prop := b.1 ≤ p.1 ∧ p.1 + p.2 ≤ b.1 + b.2

theorem pdisj_of_subBlock {p b c : Block} (hs : subBlock p b) (h : pdisj b c) :
    pdisj p c := by
  rcases h with h | h | h | h
  · rcases hs with ⟨h1, h2⟩
    exact Or.inl (by omega)
  · exact Or.inr (Or.inl h)
  · exact Or.inr (Or.inr (Or.inl (by rcases hs with ⟨h1, h2⟩; omega)))
  · exact Or.inr (Or.inr (Or.inr (by rcases hs with ⟨h1, h2⟩; omega)))

def allPos (l : List Block) : Prop := ∀ b ∈ l, 0 < b.2

/-- The allocator's inductive invariant: all extents are inside the
region, the free and allocated sizes account for every byte, and extents
overlap only when empty. -/
structure AInv (N : Nat) (s : AState) : Prop where
  bf : blocksBounded N s.free
  ba : blocksBounded N s.alloc
  sum_eq : bSum s.free + bSum s.alloc = N
  disj : List.Pairwise pdisj (s.free ++ s.alloc)

theorem AInv_init (N : Nat) : AInv N (initState N) := by
  refine ⟨?_, ?_, ?_, ?_⟩
  · intro b hb
    simp [initState] at hb
    simp [hb]
  · intro b hb
    simp [initState] at hb
  · simp [initState, bSum]
  · simp [initState]

/-- For a fitting block inside the region, all the `size_t` computations of
the success branch of `allocate` are exact: the aligned offset rounds the
block offset up within the block, and the rounded size plus waste fits. -/
theorem fits_facts {N k size' : Nat} (hN : N < 2 ^ 64) (hk : k < 64)
    (hmod : size' % 2 ^ k = 0) (hlt : size' < 2 ^ 64)
    {b : Block} (hb : b.1 + b.2 ≤ N) (hfit : fitsB size' (2 ^ k) b) :
    b.1 ≤ alignC b.1 (2 ^ k) ∧
    alignC b.1 (2 ^ k) < b.1 + 2 ^ k ∧
    sub64 (alignC b.1 (2 ^ k)) b.1 = alignC b.1 (2 ^ k) - b.1 ∧
    m64 (size' + sub64 (alignC b.1 (2 ^ k)) b.1) = size' + (alignC b.1 (2 ^ k) - b.1) ∧
    size' + (alignC b.1 (2 ^ k) - b.1) ≤ b.2 ∧
    alignC b.1 (2 ^ k) + size' ≤ b.1 + b.2 := by
  have hk2 : (2:Nat) ^ k ≤ 2 ^ 63 := Nat.pow_le_pow_right (by omega) (by omega)
  have hkpos : 0 < (2:Nat) ^ k := Nat.pos_pow_of_pos k (by omega)
  have hb1 : b.1 < 2 ^ 64 := by omega
  have hsmax : size' ≤ 2 ^ 64 - 2 ^ k := le_of_mod_eq_zero_lt hk hmod hlt
  by_cases hcz : b.1 + (2 ^ k - 1) < 2 ^ 64
  · obtain ⟨h1, h2⟩ := alignC_no_wrap hk hcz
    have hal : alignC b.1 (2 ^ k) < 2 ^ 64 := alignC_lt hk
    have hsub : sub64 (alignC b.1 (2 ^ k)) b.1 = alignC b.1 (2 ^ k) - b.1 :=
      sub64_exact h1 hal
    have hnw : size' + (alignC b.1 (2 ^ k) - b.1) < 2 ^ 64 := by omega
    have hm : m64 (size' + sub64 (alignC b.1 (2 ^ k)) b.1)
        = size' + (alignC b.1 (2 ^ k) - b.1) := by
      rw [hsub]
      exact m64_eq_of_lt hnw
    rw [fitsB, hm] at hfit
    exact ⟨h1, h2, hsub, hm, hfit, by omega⟩
  · exfalso
    push_neg at hcz
    have hb1pos : 0 < b.1 := by omega
    have htmod : (b.1 + (2 ^ k - 1)) % 2 ^ 64 = b.1 + (2 ^ k - 1) - 2 ^ 64 := by omega
    have htlt : b.1 + (2 ^ k - 1) - 2 ^ 64 < 2 ^ k := by omega
    have hal0 : alignC b.1 (2 ^ k) = 0 := by
      rw [alignC_eq hk, htmod, Nat.mod_eq_of_lt htlt]
      omega
    have hwaste : sub64 (alignC b.1 (2 ^ k)) b.1 = 2 ^ 64 - b.1 := by
      rw [hal0, sub64_of_lt hb1pos (by omega)]
      omega
    rw [fitsB, hwaste, m64_eq_of_lt (by omega)] at hfit
    omega

/-- Structure of a successful scan: some block of the free list fits, the
returned offset is its aligned offset, and the new free list is the old
one with that block replaced (at the back) by its unused parts. -/
theorem allocScan_some_spec {size' a : Nat} :
    ∀ {fl : List Block} {o : Nat} {fl' : List Block},
      allocScan size' a fl = some (o, fl') →
      ∃ pre b suf, fl = pre ++ b :: suf ∧ fitsB size' a b ∧
        o = alignC b.1 a ∧ fl' = pre ++ (suf ++ wasteRem size' a b) := by
  intro fl
  induction fl with
  | nil => intro o fl' h; simp [allocScan] at h
  | cons b rest ih =>
    intro o fl' h
    rw [allocScan] at h
    by_cases hf : fitsB size' a b
    · rw [if_pos hf] at h
      refine ⟨[], b, rest, by simp, hf, ?_, ?_⟩
      · cases h
        rfl
      · cases h
        simp
    · rw [if_neg hf] at h
      rcases hr : allocScan size' a rest with _ | p
      · rw [hr] at h
        cases h
      · rw [hr] at h
        rcases p with ⟨o', l⟩
        cases h
        obtain ⟨pre, bb, suf, h1, h2, h3, h4⟩ := ih hr
        exact ⟨b :: pre, bb, suf, by simp [h1], h2, h3, by simp [h4]⟩

/-- A scan fails exactly when no free block fits. -/
theorem allocScan_none_iff {size' a : Nat} :
    ∀ {fl : List Block}, allocScan size' a fl = none ↔ ∀ b ∈ fl, ¬ fitsB size' a b := by
  intro fl
  induction fl with
  | nil => simp [allocScan]
  | cons b rest ih =>
    rw [allocScan]
    by_cases hf : fitsB size' a b
    · rw [if_pos hf]
      simp [hf]
    · rw [if_neg hf]
      rcases hr : allocScan size' a rest with _ | p
      · constructor
        · intro _ c hc
          rcases List.mem_cons.mp hc with rfl | hc'
          · exact hf
          · exact (ih.mp hr) c hc'
        · intro _
          rfl
      · constructor
        · intro h
          cases h
        · intro h
          have : allocScan size' a rest = none := ih.mpr fun c hc => h c (by simp [hc])
          rw [this] at hr
          cases hr

theorem bSum_append (l1 l2 : List Block) : bSum (l1 ++ l2) = bSum l1 + bSum l2 := by
  simp [bSum]

/-- The parts produced by a successful fit: they are sub-ranges of the
fitted block, they account together with the allocated size for the whole
block, and together with the allocated extent they are pairwise
non-overlapping. -/
theorem alloc_pieces {N k size' : Nat} (hN : N < 2 ^ 64) (hk : k < 64)
    (hmod : size' % 2 ^ k = 0) (hlt : size' < 2 ^ 64)
    {b : Block} (hb : b.1 + b.2 ≤ N) (hfit : fitsB size' (2 ^ k) b) :
    (∀ p ∈ wasteRem size' (2 ^ k) b, subBlock p b) ∧
    bSum (wasteRem size' (2 ^ k) b) + size' = b.2 ∧
    List.Pairwise pdisj (wasteRem size' (2 ^ k) b ++ [(alignC b.1 (2 ^ k), size')]) ∧
    subBlock (alignC b.1 (2 ^ k), size') b ∧
    allPos (wasteRem size' (2 ^ k) b) := by
  obtain ⟨h1, h2, hsub, hm, hfit', hin⟩ := fits_facts hN hk hmod hlt hb hfit
  have hb2 : b.2 < 2 ^ 64 := by omega
  have hrem1 : sub64 b.2 size' = b.2 - size' := sub64_exact (by omega) hb2
  have hrem2 : sub64 (sub64 b.2 size') (sub64 (alignC b.1 (2 ^ k)) b.1)
      = b.2 - size' - (alignC b.1 (2 ^ k) - b.1) := by
    rw [hrem1, hsub]
    exact sub64_exact (by omega) (by omega)
  have hoff : m64 (alignC b.1 (2 ^ k) + size') = alignC b.1 (2 ^ k) + size' :=
    m64_eq_of_lt (by omega)
  rw [hsub] at hm hrem2
  rw [wasteRem, hsub, hm, hrem2, hoff]
  by_cases hw : 0 < alignC b.1 (2 ^ k) - b.1
  · by_cases hr : size' + (alignC b.1 (2 ^ k) - b.1) < b.2
    · rw [if_pos hw, if_pos hr]
      refine ⟨?_, ?_, ?_, ⟨by omega, by omega⟩, ?_⟩
      · intro p hp
        simp only [List.mem_append, List.mem_singleton] at hp
        rcases hp with hp | hp <;> (rw [hp]; exact ⟨by omega, by omega⟩)
      · simp [bSum]
        omega
      · simp only [List.cons_append, List.nil_append, List.pairwise_cons,
          List.mem_cons, List.mem_singleton, List.not_mem_nil]
        refine ⟨?_, ?_, by simp⟩
        · intro c hc
          rcases hc with hc | hc
          · rw [hc]
            exact Or.inr (Or.inr (Or.inl (by simp; omega)))
          · simp at hc
            rw [hc]
            exact Or.inr (Or.inr (Or.inl (by simp; omega)))
        · intro c hc
          simp at hc
          rw [hc]
          exact Or.inr (Or.inr (Or.inr (by simp)))
      · intro p hp
        simp only [List.mem_append, List.mem_singleton] at hp
        rcases hp with hp | hp <;> (rw [hp]; simp; omega)
    · rw [if_pos hw, if_neg hr]
      refine ⟨?_, ?_, ?_, ⟨by omega, by omega⟩, ?_⟩
      · intro p hp
        simp only [List.append_nil, List.mem_singleton] at hp
        rw [hp]
        exact ⟨by omega, by omega⟩
      · simp [bSum]
        omega
      · simp only [List.append_nil, List.cons_append, List.nil_append, List.pairwise_cons,
          List.mem_singleton, List.not_mem_nil]
        refine ⟨?_, by simp⟩
        intro c hc
        rw [hc]
        exact Or.inr (Or.inr (Or.inl (by simp; omega)))
      · intro p hp
        simp only [List.append_nil, List.mem_singleton] at hp
        rw [hp]
        simp
        omega
  · by_cases hr : size' + (alignC b.1 (2 ^ k) - b.1) < b.2
    · rw [if_neg hw, if_pos hr]
      refine ⟨?_, ?_, ?_, ⟨by omega, by omega⟩, ?_⟩
      · intro p hp
        simp only [List.nil_append, List.mem_singleton] at hp
        rw [hp]
        exact ⟨by omega, by omega⟩
      · simp [bSum]
        omega
      · simp only [List.nil_append, List.cons_append, List.pairwise_cons,
          List.mem_singleton, List.not_mem_nil]
        refine ⟨?_, by simp⟩
        intro c hc
        rw [hc]
        exact Or.inr (Or.inr (Or.inr (by simp)))
      · intro p hp
        simp only [List.nil_append, List.mem_singleton] at hp
        rw [hp]
        simp
        omega
    · rw [if_neg hw, if_neg hr]
      refine ⟨by simp, ?_, by simp, ⟨by omega, by omega⟩, by simp [allPos]⟩
      simp [bSum]
      omega

/-- A fitting scan preserves the allocator invariant on the mutated lists
(whether or not the returned pointer is null): the aligned offset is a
multiple of the alignment, the recorded extent lies inside the region,
and positive extents stay positive. -/
theorem allocFit_inv {N : Nat} (hN : N < 2 ^ 64) {s : AState} {size k o : Nat}
    {fl : List Block} (hk : k < 64) (inv : AInv N s)
    (hscan : allocScan (alignC size (2 ^ k)) (2 ^ k) s.free = some (o, fl)) :
    AInv N ⟨fl, s.alloc ++ [(o, alignC size (2 ^ k))]⟩ ∧ o % 2 ^ k = 0 ∧
      o + alignC size (2 ^ k) ≤ N ∧
      (allPos s.free → allPos s.alloc → 0 < alignC size (2 ^ k) →
        allPos fl ∧ allPos (s.alloc ++ [(o, alignC size (2 ^ k))])) := by
  obtain ⟨pre, b, suf, hfl, hfit, hoeq, hfl'⟩ := allocScan_some_spec hscan
  subst hoeq
  have hbB : b.1 + b.2 ≤ N := inv.bf b (by rw [hfl]; simp)
  obtain ⟨hsubs, hsum, hpw, hA, hposW⟩ :=
    alloc_pieces hN hk (alignC_mod hk) (alignC_lt hk) hbB hfit
  obtain ⟨hle1, _, _, _, hfit', hinb⟩ :=
    fits_facts hN hk (alignC_mod hk) (alignC_lt hk) hbB hfit
  have hApt : subBlock (alignC b.1 (2 ^ k), alignC size (2 ^ k)) b := hA
  -- the old list, permuted to expose the fitted block
  have hpold : ((pre ++ b :: suf) ++ s.alloc).Perm
      (b :: (pre ++ (suf ++ s.alloc))) := by
    have : (pre ++ b :: (suf ++ s.alloc)).Perm (b :: (pre ++ (suf ++ s.alloc))) :=
      List.perm_middle
    simp only [List.append_assoc, List.cons_append] at this ⊢
    exact this
  have hold : List.Pairwise pdisj (b :: (pre ++ (suf ++ s.alloc))) := by
    refine (hpold.pairwise_iff fun h' => pdisj_symm h').mp ?_
    have := inv.disj
    rw [hfl] at this
    exact this
  have hb_rest : ∀ x ∈ pre ++ (suf ++ s.alloc), pdisj b x :=
    (List.pairwise_cons.mp hold).1
  have hrest : List.Pairwise pdisj (pre ++ (suf ++ s.alloc)) :=
    (List.pairwise_cons.mp hold).2
  -- the new list, permuted to put the new pieces in front
  have hpnew : ((pre ++ (suf ++ wasteRem (alignC size (2 ^ k)) (2 ^ k) b)) ++
        (s.alloc ++ [(alignC b.1 (2 ^ k), alignC size (2 ^ k))])).Perm
      ((wasteRem (alignC size (2 ^ k)) (2 ^ k) b ++
          [(alignC b.1 (2 ^ k), alignC size (2 ^ k))]) ++
        (pre ++ (suf ++ s.alloc))) := by
    rw [List.perm_iff_count]
    intro x
    simp [List.count_append, List.count_cons]
    omega
  refine ⟨⟨?_, ?_, ?_, ?_⟩, ?_, ?_, ?_⟩
  · -- free blocks bounded
    intro p hp
    rw [hfl'] at hp
    simp only [List.mem_append] at hp
    rcases hp with hp | hp | hp
    · exact inv.bf p (by rw [hfl]; simp [hp])
    · exact inv.bf p (by rw [hfl]; simp [hp])
    · have := hsubs p hp
      rcases this with ⟨_, h2⟩
      omega
  · -- allocated blocks bounded
    intro p hp
    simp only [List.mem_append, List.mem_singleton] at hp
    rcases hp with hp | hp
    · exact inv.ba p hp
    · rw [hp]
      rcases hApt with ⟨_, h2⟩
      simp only
      omega
  · -- byte accounting
    have hold_sum : bSum s.free + bSum s.alloc = N := inv.sum_eq
    rw [hfl, bSum_append] at hold_sum
    simp only [bSum, List.map_cons, List.sum_cons] at hold_sum
    rw [hfl']
    simp only [bSum_append]
    have : bSum [(alignC b.1 (2 ^ k), alignC size (2 ^ k))] = alignC size (2 ^ k) := by
      simp [bSum]
    rw [this]
    have hsum' := hsum
    simp only [bSum] at hsum' hold_sum ⊢
    omega
  · -- pairwise disjointness
    rw [hfl']
    refine (hpnew.pairwise_iff fun h' => pdisj_symm h').mpr ?_
    refine List.pairwise_append.mpr ⟨hpw, hrest, ?_⟩
    intro p hpmem x hx
    have hps : subBlock p b := by
      rcases List.mem_append.mp hpmem with hp | hp
      · exact hsubs p hp
      · rw [List.mem_singleton.mp hp]
        exact hApt
    exact pdisj_of_subBlock hps (hb_rest x hx)
  · exact alignC_mod hk
  · rcases hApt with ⟨_, h2⟩
    omega
  · -- positivity is preserved
    intro hpf hpa hposz
    refine ⟨?_, ?_⟩
    · intro p hp
      rw [hfl'] at hp
      simp only [List.mem_append] at hp
      rcases hp with hp | hp | hp
      · exact hpf p (by rw [hfl]; simp [hp])
      · exact hpf p (by rw [hfl]; simp [hp])
      · exact hposW p hp
    · intro p hp
      simp only [List.mem_append, List.mem_singleton] at hp
      rcases hp with hp | hp
      · exact hpa p hp
      · rw [hp]
        exact hposz

/-- `allocate` preserves the invariant on the post-call state whatever the
returned pointer: a failed scan leaves the state untouched, a fitting scan
mutates it within the invariant. -/
theorem cxlAllocate_state_inv {N : Nat} (hN : N < 2 ^ 64) (s : AState) (size k : Nat)
    (hk : k < 64) (inv : AInv N s) :
    AInv N (cxlAllocate N s size (2 ^ k)).2 ∧
      (allPos s.free → allPos s.alloc → 0 < alignC size (2 ^ k) →
        allPos (cxlAllocate N s size (2 ^ k)).2.free ∧
        allPos (cxlAllocate N s size (2 ^ k)).2.alloc) := by
  rcases hscan : allocScan (alignC size (2 ^ k)) (2 ^ k) s.free with _ | p
  · have hst : (cxlAllocate N s size (2 ^ k)).2 = s := by
      simp [cxlAllocate, hscan]
    rw [hst]
    exact ⟨inv, fun hf ha _ => ⟨hf, ha⟩⟩
  · rcases p with ⟨o, fl⟩
    have main := allocFit_inv hN hk inv hscan
    have hst : (cxlAllocate N s size (2 ^ k)).2 =
        ⟨fl, s.alloc ++ [(o, alignC size (2 ^ k))]⟩ := by
      simp [cxlAllocate, hscan]
    rw [hst]
    exact ⟨main.1, fun hf ha hz => main.2.2.2 hf ha hz⟩

/-- When `allocate` returns a non-null pointer from an invariant state, the
offset is aligned, the recorded extent lies inside the region, and it was
appended to the allocated list. -/
theorem cxlAllocate_some {N : Nat} (hN : N < 2 ^ 64) {s : AState} {size k off : Nat}
    {s' : AState} (hk : k < 64) (inv : AInv N s)
    (h : cxlAllocate N s size (2 ^ k) = (some off, s')) :
    AInv N s' ∧ off < N ∧ off % 2 ^ k = 0 ∧ off + alignC size (2 ^ k) ≤ N ∧
      s'.alloc = s.alloc ++ [(off, alignC size (2 ^ k))] := by
  rcases hscan : allocScan (alignC size (2 ^ k)) (2 ^ k) s.free with _ | p
  · simp only [cxlAllocate, hscan] at h
    exact absurd (congrArg Prod.fst h) (by simp)
  · rcases p with ⟨o, fl⟩
    have main := allocFit_inv hN hk inv hscan
    simp only [cxlAllocate, hscan] at h
    by_cases ho : o < N
    · rw [if_pos ho] at h
      rw [Prod.mk.injEq] at h
      obtain ⟨h1, h2⟩ := h
      injection h1 with h1
      subst h1
      subst h2
      exact ⟨main.1, ho, main.2.1, main.2.2.1, rfl⟩
    · rw [if_neg ho] at h
      exact absurd (congrArg Prod.fst h) (by simp)

/-! ## Sorting lemmas -/

theorem lexLe_total (b c : Block) : lexLe b c ∨ lexLe c b := by
  simp only [lexLe]
  omega

theorem lexLe_trans {b c d : Block} (h1 : lexLe b c) (h2 : lexLe c d) : lexLe b d := by
  simp only [lexLe] at h1 h2 ⊢
  omega

theorem insertBlock_perm (b : Block) : ∀ l : List Block, (insertBlock b l).Perm (b :: l) := by
  intro l
  induction l with
  | nil => rw [insertBlock]
  | cons c rest ih =>
    rw [insertBlock]
    by_cases h : lexLe b c
    · rw [if_pos h]
    · rw [if_neg h]
      exact (ih.cons c).trans (List.Perm.swap b c rest)

theorem insertBlock_pairwise (b : Block) :
    ∀ l : List Block, List.Pairwise lexLe l → List.Pairwise lexLe (insertBlock b l) := by
  intro l
  induction l with
  | nil =>
    intro _
    rw [insertBlock]
    exact List.pairwise_singleton _ _
  | cons c rest ih =>
    intro hp
    obtain ⟨hc_rest, hrest⟩ := List.pairwise_cons.mp hp
    rw [insertBlock]
    by_cases h : lexLe b c
    · rw [if_pos h]
      refine List.pairwise_cons.mpr ⟨?_, hp⟩
      intro x hx
      rcases List.mem_cons.mp hx with rfl | hx'
      · exact h
      · exact lexLe_trans h (hc_rest x hx')
    · rw [if_neg h]
      refine List.pairwise_cons.mpr ⟨?_, ih hrest⟩
      intro x hx
      have hx' := (insertBlock_perm b rest).mem_iff.mp hx
      rcases List.mem_cons.mp hx' with hxb | hx''
      · rw [hxb]
        rcases lexLe_total b c with hbc | hcb
        · exact absurd hbc h
        · exact hcb
      · exact hc_rest x hx''

theorem sortBlocks_perm : ∀ l : List Block, (sortBlocks l).Perm l := by
  intro l
  induction l with
  | nil => rw [sortBlocks]
  | cons b rest ih =>
    rw [sortBlocks]
    exact (insertBlock_perm b (sortBlocks rest)).trans (ih.cons b)

theorem sortBlocks_pairwise : ∀ l : List Block, List.Pairwise lexLe (sortBlocks l) := by
  intro l
  induction l with
  | nil => rw [sortBlocks]; exact List.Pairwise.nil
  | cons b rest ih =>
    rw [sortBlocks]
    exact insertBlock_pairwise b _ ih

/-! ## Coalescing lemmas -/

/-- Merging two abutting blocks keeps non-overlap with any third block. -/
theorem pdisj_merge {b c x : Block} (hbc : b.1 + b.2 = c.1) (h1 : pdisj b x)
    (h2 : pdisj c x) : pdisj (b.1, b.2 + c.2) x := by
  simp only [pdisj] at h1 h2 ⊢
  omega

/-- Merging two abutting blocks keeps the lexicographic order bound. -/
theorem lexLe_merge {b c d : Block} (hbc : b.1 + b.2 = c.1)
    (h2 : lexLe c d) : lexLe (b.1, b.2 + c.2) d := by
  simp only [lexLe] at h2 ⊢
  omega

theorem coalesce_bounded {N : Nat} (hN : N < 2 ^ 64) :
    ∀ l : List Block, blocksBounded N l → blocksBounded N (coalesceBlocks l) := by
  intro l
  induction l using coalesceBlocks.induct with
  | case1 =>
    intro h
    rw [coalesceBlocks]
    exact h
  | case2 b =>
    intro h
    rw [coalesceBlocks]
    exact h
  | case3 b c rest hcond ih =>
    intro h
    rw [coalesceBlocks, if_pos hcond]
    apply ih
    have hb : b.1 + b.2 ≤ N := h b (by simp)
    have hc : c.1 + c.2 ≤ N := h c (by simp)
    have hbc : b.1 + b.2 = c.1 := by
      rw [m64_eq_of_lt (by omega)] at hcond
      exact hcond
    have hm : m64 (b.2 + c.2) = b.2 + c.2 := m64_eq_of_lt (by omega)
    intro p hp
    rcases List.mem_cons.mp hp with rfl | hp'
    · simp only [hm]
      omega
    · exact h p (by simp [hp'])
  | case4 b c rest hcond ih =>
    intro h
    rw [coalesceBlocks, if_neg hcond]
    intro p hp
    rcases List.mem_cons.mp hp with rfl | hp'
    · exact h p (by simp)
    · exact ih (fun q hq => h q (by simp [hq])) p hp'

theorem coalesce_sum {N : Nat} (hN : N < 2 ^ 64) :
    ∀ l : List Block, blocksBounded N l → bSum (coalesceBlocks l) = bSum l := by
  intro l
  induction l using coalesceBlocks.induct with
  | case1 => rw [coalesceBlocks]; intro _; rfl
  | case2 b => rw [coalesceBlocks]; intro _; rfl
  | case3 b c rest hcond ih =>
    intro h
    rw [coalesceBlocks, if_pos hcond]
    have hb : b.1 + b.2 ≤ N := h b (by simp)
    have hc : c.1 + c.2 ≤ N := h c (by simp)
    have hbc : b.1 + b.2 = c.1 := by
      rw [m64_eq_of_lt (by omega)] at hcond
      exact hcond
    have hm : m64 (b.2 + c.2) = b.2 + c.2 := m64_eq_of_lt (by omega)
    have hbnd : blocksBounded N ((b.1, m64 (b.2 + c.2)) :: rest) := by
      intro p hp
      rcases List.mem_cons.mp hp with rfl | hp'
      · simp only [hm]
        omega
      · exact h p (by simp [hp'])
    rw [ih hbnd]
    simp only [bSum, List.map_cons, List.sum_cons, hm]
    omega
  | case4 b c rest hcond ih =>
    intro h
    rw [coalesceBlocks, if_neg hcond]
    have := ih (fun q hq => h q (by simp [hq]))
    simp only [bSum, List.map_cons, List.sum_cons] at this ⊢
    omega

theorem coalesce_allPos {N : Nat} (hN : N < 2 ^ 64) :
    ∀ l : List Block, blocksBounded N l → allPos l → allPos (coalesceBlocks l) := by
  intro l
  induction l using coalesceBlocks.induct with
  | case1 =>
    intro _ h
    rw [coalesceBlocks]
    exact h
  | case2 b =>
    intro _ h
    rw [coalesceBlocks]
    exact h
  | case3 b c rest hcond ih =>
    intro h hpos
    rw [coalesceBlocks, if_pos hcond]
    have hb : b.1 + b.2 ≤ N := h b (by simp)
    have hc : c.1 + c.2 ≤ N := h c (by simp)
    have hbc : b.1 + b.2 = c.1 := by
      rw [m64_eq_of_lt (by omega)] at hcond
      exact hcond
    have hm : m64 (b.2 + c.2) = b.2 + c.2 := m64_eq_of_lt (by omega)
    apply ih
    · intro p hp
      rcases List.mem_cons.mp hp with rfl | hp'
      · simp only [hm]
        omega
      · exact h p (by simp [hp'])
    · intro p hp
      rcases List.mem_cons.mp hp with rfl | hp'
      · have := hpos b (by simp)
        simp only [hm]
        omega
      · exact hpos p (by simp [hp'])
  | case4 b c rest hcond ih =>
    intro h hpos
    rw [coalesceBlocks, if_neg hcond]
    intro p hp
    rcases List.mem_cons.mp hp with rfl | hp'
    · exact hpos p (by simp)
    · exact ih (fun q hq => h q (by simp [hq])) (fun q hq => hpos q (by simp [hq])) p hp'

theorem coalesce_cross {N : Nat} (hN : N < 2 ^ 64) (x : Block) :
    ∀ l : List Block, blocksBounded N l → (∀ p ∈ l, pdisj p x) →
      ∀ p ∈ coalesceBlocks l, pdisj p x := by
  intro l
  induction l using coalesceBlocks.induct with
  | case1 =>
    intro _ h
    rw [coalesceBlocks]
    exact h
  | case2 b =>
    intro _ h
    rw [coalesceBlocks]
    exact h
  | case3 b c rest hcond ih =>
    intro hbnd h
    rw [coalesceBlocks, if_pos hcond]
    have hb : b.1 + b.2 ≤ N := hbnd b (by simp)
    have hc : c.1 + c.2 ≤ N := hbnd c (by simp)
    have hbc : b.1 + b.2 = c.1 := by
      rw [m64_eq_of_lt (by omega)] at hcond
      exact hcond
    have hm : m64 (b.2 + c.2) = b.2 + c.2 := m64_eq_of_lt (by omega)
    apply ih
    · intro p hp
      rcases List.mem_cons.mp hp with rfl | hp'
      · simp only [hm]
        omega
      · exact hbnd p (by simp [hp'])
    · intro p hp
      rcases List.mem_cons.mp hp with rfl | hp'
      · rw [hm]
        exact pdisj_merge hbc (h b (by simp)) (h c (by simp))
      · exact h p (by simp [hp'])
  | case4 b c rest hcond ih =>
    intro hbnd h
    rw [coalesceBlocks, if_neg hcond]
    intro p hp
    rcases List.mem_cons.mp hp with rfl | hp'
    · exact h p (by simp)
    · exact ih (fun q hq => hbnd q (by simp [hq])) (fun q hq => h q (by simp [hq])) p hp'

theorem coalesce_pdisj {N : Nat} (hN : N < 2 ^ 64) :
    ∀ l : List Block, blocksBounded N l → List.Pairwise pdisj l →
      List.Pairwise pdisj (coalesceBlocks l) := by
  intro l
  induction l using coalesceBlocks.induct with
  | case1 =>
    intro _ h
    rw [coalesceBlocks]
    exact h
  | case2 b =>
    intro _ h
    rw [coalesceBlocks]
    exact h
  | case3 b c rest hcond ih =>
    intro hbnd h
    rw [coalesceBlocks, if_pos hcond]
    have hb : b.1 + b.2 ≤ N := hbnd b (by simp)
    have hc : c.1 + c.2 ≤ N := hbnd c (by simp)
    have hbc : b.1 + b.2 = c.1 := by
      rw [m64_eq_of_lt (by omega)] at hcond
      exact hcond
    have hm : m64 (b.2 + c.2) = b.2 + c.2 := m64_eq_of_lt (by omega)
    obtain ⟨hbAll, h'⟩ := List.pairwise_cons.mp h
    obtain ⟨hcAll, hrest⟩ := List.pairwise_cons.mp h'
    apply ih
    · intro p hp
      rcases List.mem_cons.mp hp with rfl | hp'
      · simp only [hm]
        omega
      · exact hbnd p (by simp [hp'])
    · refine List.pairwise_cons.mpr ⟨?_, hrest⟩
      intro d hd
      rw [hm]
      exact pdisj_merge hbc (hbAll d (by simp [hd])) (hcAll d hd)
  | case4 b c rest hcond ih =>
    intro hbnd h
    rw [coalesceBlocks, if_neg hcond]
    obtain ⟨hbAll, h'⟩ := List.pairwise_cons.mp h
    refine List.pairwise_cons.mpr ⟨?_, ih (fun q hq => hbnd q (by simp [hq])) h'⟩
    intro d hd
    exact pdisj_symm (coalesce_cross hN b (c :: rest)
      (fun q hq => hbnd q (by simp [hq]))
      (fun p hp => pdisj_symm (hbAll p hp)) d hd)

/-- Coalescing a nonempty list yields a nonempty list whose head keeps the
offset of the input head. -/
theorem coalesce_head :
    ∀ l : List Block, ∀ c rest, l = c :: rest →
      ∃ hd rest', coalesceBlocks l = hd :: rest' ∧ hd.1 = c.1 := by
  intro l
  induction l using coalesceBlocks.induct with
  | case1 =>
    intro c rest h
    cases h
  | case2 b =>
    intro c rest h
    rw [coalesceBlocks]
    rw [List.cons.injEq] at h
    exact ⟨b, [], rfl, by rw [h.1]⟩
  | case3 b c0 rest0 hcond ih =>
    intro c rest h
    rw [List.cons.injEq] at h
    rw [coalesceBlocks, if_pos hcond]
    obtain ⟨hd, rest', heq, hoff⟩ := ih (b.1, m64 (b.2 + c0.2)) rest0 rfl
    exact ⟨hd, rest', heq, by rw [hoff, h.1]⟩
  | case4 b c0 rest0 hcond ih =>
    intro c rest h
    rw [List.cons.injEq] at h
    rw [coalesceBlocks, if_neg hcond]
    exact ⟨b, coalesceBlocks (c0 :: rest0), rfl, by rw [h.1]⟩

/-- An element lexicographically below every block of a list stays below
every block of its coalescing. -/
theorem coalesce_lower {N : Nat} (hN : N < 2 ^ 64) (x : Block) :
    ∀ l : List Block, blocksBounded N l → (∀ p ∈ l, lexLe x p) →
      ∀ p ∈ coalesceBlocks l, lexLe x p := by
  intro l
  induction l using coalesceBlocks.induct with
  | case1 =>
    intro _ h
    rw [coalesceBlocks]
    exact h
  | case2 b =>
    intro _ h
    rw [coalesceBlocks]
    exact h
  | case3 b c rest hcond ih =>
    intro hbnd h
    rw [coalesceBlocks, if_pos hcond]
    have hb : b.1 + b.2 ≤ N := hbnd b (by simp)
    have hc : c.1 + c.2 ≤ N := hbnd c (by simp)
    have hbc : b.1 + b.2 = c.1 := by
      rw [m64_eq_of_lt (by omega)] at hcond
      exact hcond
    have hm : m64 (b.2 + c.2) = b.2 + c.2 := m64_eq_of_lt (by omega)
    apply ih
    · intro p hp
      rcases List.mem_cons.mp hp with rfl | hp'
      · simp only [hm]
        omega
      · exact hbnd p (by simp [hp'])
    · intro p hp
      rcases List.mem_cons.mp hp with rfl | hp'
      · have hxb := h b (by simp)
        rw [hm]
        simp only [lexLe] at hxb ⊢
        omega
      · exact h p (by simp [hp'])
  | case4 b c rest hcond ih =>
    intro hbnd h
    rw [coalesceBlocks, if_neg hcond]
    intro p hp
    rcases List.mem_cons.mp hp with rfl | hp'
    · exact h p (by simp)
    · exact ih (fun q hq => hbnd q (by simp [hq])) (fun q hq => h q (by simp [hq])) p hp'

theorem coalesce_sorted {N : Nat} (hN : N < 2 ^ 64) :
    ∀ l : List Block, blocksBounded N l → List.Pairwise lexLe l →
      List.Pairwise lexLe (coalesceBlocks l) := by
  intro l
  induction l using coalesceBlocks.induct with
  | case1 =>
    intro _ h
    rw [coalesceBlocks]
    exact h
  | case2 b =>
    intro _ h
    rw [coalesceBlocks]
    exact h
  | case3 b c rest hcond ih =>
    intro hbnd h
    rw [coalesceBlocks, if_pos hcond]
    have hb : b.1 + b.2 ≤ N := hbnd b (by simp)
    have hc : c.1 + c.2 ≤ N := hbnd c (by simp)
    have hbc : b.1 + b.2 = c.1 := by
      rw [m64_eq_of_lt (by omega)] at hcond
      exact hcond
    have hm : m64 (b.2 + c.2) = b.2 + c.2 := m64_eq_of_lt (by omega)
    obtain ⟨hbAll, h'⟩ := List.pairwise_cons.mp h
    obtain ⟨hcAll, hrest⟩ := List.pairwise_cons.mp h'
    apply ih
    · intro p hp
      rcases List.mem_cons.mp hp with rfl | hp'
      · simp only [hm]
        omega
      · exact hbnd p (by simp [hp'])
    · refine List.pairwise_cons.mpr ⟨?_, hrest⟩
      intro d hd
      rw [hm]
      exact lexLe_merge hbc (hcAll d hd)
  | case4 b c rest hcond ih =>
    intro hbnd h
    rw [coalesceBlocks, if_neg hcond]
    obtain ⟨hbAll, h'⟩ := List.pairwise_cons.mp h
    refine List.pairwise_cons.mpr ⟨?_, ih (fun q hq => hbnd q (by simp [hq])) h'⟩
    intro d hd
    exact coalesce_lower hN b (c :: rest) (fun q hq => hbnd q (by simp [hq]))
      (fun p hp => hbAll p hp) d hd

/-- After the coalescing pass, no block abuts its successor. -/
theorem coalesce_chain {N : Nat} (hN : N < 2 ^ 64) :
    ∀ l : List Block, blocksBounded N l →
      List.Chain' (fun b c : Block => b.1 + b.2 ≠ c.1) (coalesceBlocks l) := by
  intro l
  induction l using coalesceBlocks.induct with
  | case1 =>
    intro _
    rw [coalesceBlocks]
    exact List.chain'_nil
  | case2 b =>
    intro _
    rw [coalesceBlocks]
    exact List.chain'_singleton b
  | case3 b c rest hcond ih =>
    intro hbnd
    rw [coalesceBlocks, if_pos hcond]
    have hb : b.1 + b.2 ≤ N := hbnd b (by simp)
    have hc : c.1 + c.2 ≤ N := hbnd c (by simp)
    have hbc : b.1 + b.2 = c.1 := by
      rw [m64_eq_of_lt (by omega)] at hcond
      exact hcond
    have hm : m64 (b.2 + c.2) = b.2 + c.2 := m64_eq_of_lt (by omega)
    apply ih
    intro p hp
    rcases List.mem_cons.mp hp with rfl | hp'
    · simp only [hm]
      omega
    · exact hbnd p (by simp [hp'])
  | case4 b c rest hcond ih =>
    intro hbnd
    rw [coalesceBlocks, if_neg hcond]
    have hb : b.1 + b.2 ≤ N := hbnd b (by simp)
    have hbc : b.1 + b.2 ≠ c.1 := by
      rw [m64_eq_of_lt (by omega)] at hcond
      exact hcond
    obtain ⟨hd, rest', heq, hoff⟩ := coalesce_head (c :: rest) c rest rfl
    rw [heq]
    refine List.chain'_cons.mpr ⟨?_, ?_⟩
    · rw [hoff]
      exact hbc
    · have := ih (fun q hq => hbnd q (by simp [hq]))
      rw [heq] at this
      exact this

/-- A lexicographically sorted, pairwise non-overlapping list with no
block abutting its successor has strictly increasing offsets. -/
theorem strict_offsets_of :
    ∀ l : List Block, List.Pairwise lexLe l →
      List.Chain' (fun b c : Block => b.1 + b.2 ≠ c.1) l →
      List.Pairwise pdisj l →
      List.Pairwise (fun b c : Block => b.1 < c.1) l := by
  have htrans : ∀ l : List Block,
      List.Chain' (fun b c : Block => b.1 < c.1) l →
      List.Pairwise (fun b c : Block => b.1 < c.1) l := fun l h =>
    (@List.chain'_iff_pairwise Block (fun b c => b.1 < c.1)
      ⟨fun a b c h1 h2 => Nat.lt_trans h1 h2⟩ l).mp h
  intro l hs hc hd
  apply htrans
  clear htrans
  induction l with
  | nil => exact List.chain'_nil
  | cons b rest ih =>
    cases rest with
    | nil => exact List.chain'_singleton b
    | cons c rest' =>
      obtain ⟨hbAll, hs'⟩ := List.pairwise_cons.mp hs
      obtain ⟨hne, hc'⟩ := List.chain'_cons.mp hc
      obtain ⟨hdAll, hd'⟩ := List.pairwise_cons.mp hd
      refine List.chain'_cons.mpr ⟨?_, ih hs' hc' hd'⟩
      have h1 : lexLe b c := hbAll c (by simp)
      have h2 : pdisj b c := hdAll c (by simp)
      simp only [lexLe] at h1
      simp only [pdisj] at h2
      omega

/-- For positive, strictly sorted, pairwise non-overlapping blocks with no
block abutting its successor, no block abuts any other block in either
direction. -/
theorem no_adjacent_of :
    ∀ l : List Block, allPos l →
      List.Pairwise (fun b c : Block => b.1 < c.1) l →
      List.Chain' (fun b c : Block => b.1 + b.2 ≠ c.1) l →
      List.Pairwise pdisj l →
      List.Pairwise (fun b c : Block => b.1 + b.2 ≠ c.1 ∧ c.1 + c.2 ≠ b.1) l := by
  intro l
  induction l with
  | nil =>
    intro _ _ _ _
    exact List.Pairwise.nil
  | cons b rest ih =>
    intro hpos hlt hc hd
    obtain ⟨hltAll, hlt'⟩ := List.pairwise_cons.mp hlt
    obtain ⟨hdAll, hd'⟩ := List.pairwise_cons.mp hd
    refine List.pairwise_cons.mpr
      ⟨?_, ih (fun q hq => hpos q (by simp [hq])) hlt' (hc.tail) hd'⟩
    intro x hx
    constructor
    · -- b.1 + b.2 ≠ x.1
      cases rest with
      | nil => simp at hx
      | cons d rest' =>
        obtain ⟨hned, _⟩ := List.chain'_cons.mp hc
        have hposb : 0 < b.2 := hpos b (by simp)
        have hposd : 0 < d.2 := hpos d (by simp)
        have hdb : pdisj b d := hdAll d (by simp)
        have hltd : b.1 < d.1 := hltAll d (by simp)
        have hlow : b.1 + b.2 < d.1 := by
          simp only [pdisj] at hdb
          omega
        rcases List.mem_cons.mp hx with rfl | hx'
        · omega
        · have : d.1 < x.1 := (List.pairwise_cons.mp hlt').1 x hx'
          omega
    · -- x.1 + x.2 ≠ b.1
      have : b.1 < x.1 := hltAll x hx
      omega

/-! ## Release (`CXLAllocator::free`) -/

theorem removeAlloc_spec {off : Nat} :
    ∀ {l : List Block} {sz : Nat} {l' : List Block},
      removeAlloc off l = some (sz, l') →
      ∃ pre suf, l = pre ++ (off, sz) :: suf ∧ l' = pre ++ suf ∧
        ∀ b ∈ pre, b.1 ≠ off := by
  intro l
  induction l with
  | nil =>
    intro sz l' h
    rw [removeAlloc] at h
    cases h
  | cons b rest ih =>
    intro sz l' h
    rw [removeAlloc] at h
    by_cases hb : b.1 = off
    · rw [if_pos hb] at h
      injection h with h2
      rw [Prod.mk.injEq] at h2
      obtain ⟨hsz, hl⟩ := h2
      refine ⟨[], rest, ?_, ?_, by simp⟩
      · rw [List.nil_append, ← hb, ← hsz]
      · rw [List.nil_append, ← hl]
    · rw [if_neg hb] at h
      rcases hr : removeAlloc off rest with _ | p
      · rw [hr] at h
        cases h
      · rw [hr] at h
        rcases p with ⟨sz0, l0⟩
        injection h with h2
        rw [Prod.mk.injEq] at h2
        obtain ⟨hsz, hl⟩ := h2
        obtain ⟨pre, suf, he1, he2, he3⟩ := ih hr
        refine ⟨b :: pre, suf, ?_, ?_, ?_⟩
        · rw [List.cons_append, ← hsz, ← he1]
        · rw [← hl, he2]
          rw [List.cons_append]
        · intro x hx
          rcases List.mem_cons.mp hx with rfl | hx'
          · exact hb
          · exact he3 x hx'

theorem removeAlloc_none_iff {off : Nat} :
    ∀ {l : List Block}, removeAlloc off l = none ↔ ∀ b ∈ l, b.1 ≠ off := by
  intro l
  induction l with
  | nil => simp [removeAlloc]
  | cons b rest ih =>
    rw [removeAlloc]
    by_cases hb : b.1 = off
    · rw [if_pos hb]
      constructor
      · intro h
        cases h
      · intro h
        exact absurd hb (h b (by simp))
    · rw [if_neg hb]
      rcases hr : removeAlloc off rest with _ | p
      · constructor
        · intro _ c hc
          rcases List.mem_cons.mp hc with rfl | hc'
          · exact hb
          · exact (ih.mp hr) c hc'
        · intro _
          rfl
      · constructor
        · intro h
          cases h
        · intro h
          have : removeAlloc off rest = none := ih.mpr fun c hc => h c (by simp [hc])
          rw [this] at hr
          cases hr

/-- A successful `free` preserves the invariant; afterwards the free list
is strictly sorted by offset, and when all extents are positive it
contains no two abutting blocks in either direction. -/
theorem cxlFree_inv {N : Nat} (hN : N < 2 ^ 64) {s : AState} {off : Nat} {s' : AState}
    (inv : AInv N s) (h : cxlFree s off = (true, s')) :
    AInv N s' ∧
    List.Pairwise (fun b c : Block => b.1 < c.1) s'.free ∧
    (allPos s.free → allPos s.alloc →
      allPos s'.free ∧ allPos s'.alloc ∧
      List.Pairwise (fun b c : Block => b.1 + b.2 ≠ c.1 ∧ c.1 + c.2 ≠ b.1) s'.free) := by
  rw [cxlFree] at h
  rcases hrm : removeAlloc off s.alloc with _ | p
  · rw [hrm] at h
    exact absurd (congrArg Prod.fst h) (by simp)
  · rcases p with ⟨sz, al⟩
    rw [hrm] at h
    rw [Prod.mk.injEq] at h
    obtain ⟨_, hs'⟩ := h
    have hfree : s'.free = coalesceBlocks (sortBlocks (s.free ++ [(off, sz)])) := by
      rw [← hs']
    have halloc : s'.alloc = al := by
      rw [← hs']
    obtain ⟨pre, suf, hal1, hal2, _⟩ := removeAlloc_spec hrm
    have hbnd0 : blocksBounded N (s.free ++ [(off, sz)]) := by
      intro p hp
      rcases List.mem_append.mp hp with hp | hp
      · exact inv.bf p hp
      · rw [List.mem_singleton.mp hp]
        exact inv.ba (off, sz) (by rw [hal1]; simp)
    have hperm0 : ((s.free ++ [(off, sz)]) ++ (pre ++ suf)).Perm
        (s.free ++ s.alloc) := by
      rw [List.perm_iff_count]
      intro x
      rw [hal1]
      simp [List.count_append, List.count_cons]
      omega
    have hpw0 : List.Pairwise pdisj ((s.free ++ [(off, sz)]) ++ (pre ++ suf)) :=
      (hperm0.pairwise_iff fun h' => pdisj_symm h').mpr inv.disj
    have hpwL0 : List.Pairwise pdisj (s.free ++ [(off, sz)]) :=
      hpw0.sublist (List.sublist_append_left _ _)
    have hcross0 : ∀ p ∈ s.free ++ [(off, sz)], ∀ x ∈ pre ++ suf, pdisj p x := by
      intro p hp x hx
      exact (List.pairwise_append.mp hpw0).2.2 p hp x hx
    have hpermS : (sortBlocks (s.free ++ [(off, sz)])).Perm (s.free ++ [(off, sz)]) :=
      sortBlocks_perm _
    have hbndS : blocksBounded N (sortBlocks (s.free ++ [(off, sz)])) := by
      intro p hp
      exact hbnd0 p (hpermS.mem_iff.mp hp)
    have hpwS : List.Pairwise pdisj (sortBlocks (s.free ++ [(off, sz)])) :=
      (hpermS.pairwise_iff fun h' => pdisj_symm h').mpr hpwL0
    have hsortS : List.Pairwise lexLe (sortBlocks (s.free ++ [(off, sz)])) :=
      sortBlocks_pairwise _
    have hbndC : blocksBounded N s'.free := by
      rw [hfree]
      exact coalesce_bounded hN _ hbndS
    have hpwC : List.Pairwise pdisj s'.free := by
      rw [hfree]
      exact coalesce_pdisj hN _ hbndS hpwS
    have hsortC : List.Pairwise lexLe s'.free := by
      rw [hfree]
      exact coalesce_sorted hN _ hbndS hsortS
    have hchainC : List.Chain' (fun b c : Block => b.1 + b.2 ≠ c.1) s'.free := by
      rw [hfree]
      exact coalesce_chain hN _ hbndS
    have hstrict : List.Pairwise (fun b c : Block => b.1 < c.1) s'.free :=
      strict_offsets_of _ hsortC hchainC hpwC
    have hsumS : bSum (sortBlocks (s.free ++ [(off, sz)])) = bSum (s.free ++ [(off, sz)]) := by
      simp only [bSum]
      exact (hpermS.map Prod.snd).sum_eq
    have hsum : bSum s'.free = bSum s.free + sz := by
      rw [hfree, coalesce_sum hN _ hbndS, hsumS, bSum_append]
      simp [bSum]
    refine ⟨⟨hbndC, ?_, ?_, ?_⟩, hstrict, ?_⟩
    · intro p hp
      rw [halloc, hal2] at hp
      rcases List.mem_append.mp hp with hp | hp
      · exact inv.ba p (by rw [hal1]; simp [hp])
      · exact inv.ba p (by rw [hal1]; simp [hp])
    · have hold := inv.sum_eq
      rw [hal1] at hold
      rw [hsum, halloc, hal2]
      simp only [bSum, List.map_cons, List.sum_cons, List.map_append, List.sum_append] at hold ⊢
      omega
    · refine List.pairwise_append.mpr ⟨hpwC, ?_, ?_⟩
      · rw [halloc, hal2]
        exact hpw0.sublist (List.sublist_append_right _ _)
      · intro p hp x hx
        rw [hfree] at hp
        rw [halloc, hal2] at hx
        exact coalesce_cross hN x _ hbndS
          (fun q hq => hcross0 q (hpermS.mem_iff.mp hq) x hx) p hp
    · intro hpf hpa
      have hposL0 : allPos (s.free ++ [(off, sz)]) := by
        intro p hp
        rcases List.mem_append.mp hp with hp | hp
        · exact hpf p hp
        · rw [List.mem_singleton.mp hp]
          exact hpa (off, sz) (by rw [hal1]; simp)
      have hposS : allPos (sortBlocks (s.free ++ [(off, sz)])) := by
        intro p hp
        exact hposL0 p (hpermS.mem_iff.mp hp)
      have hposC : allPos s'.free := by
        rw [hfree]
        exact coalesce_allPos hN _ hbndS hposS
      refine ⟨hposC, ?_, ?_⟩
      · intro p hp
        rw [halloc, hal2] at hp
        rcases List.mem_append.mp hp with hp | hp
        · exact hpa p (by rw [hal1]; simp [hp])
        · exact hpa p (by rw [hal1]; simp [hp])
      · exact no_adjacent_of _ hposC hstrict hchainC hpwC

/-- `free` preserves the invariant on the post-call state whether or not it
succeeds: a failed release leaves the state untouched. -/
theorem cxlFree_state_inv {N : Nat} (hN : N < 2 ^ 64) (s : AState) (off : Nat)
    (inv : AInv N s) :
    AInv N (cxlFree s off).2 ∧
      (allPos s.free → allPos s.alloc →
        allPos (cxlFree s off).2.free ∧ allPos (cxlFree s off).2.alloc) := by
  rcases hrm : removeAlloc off s.alloc with _ | p
  · have hst : (cxlFree s off).2 = s := by
      rw [cxlFree, hrm]
    rw [hst]
    exact ⟨inv, fun hf ha => ⟨hf, ha⟩⟩
  · rcases p with ⟨sz, al⟩
    have hfr : cxlFree s off =
        (true, ⟨coalesceBlocks (sortBlocks (s.free ++ [(off, sz)])), al⟩) := by
      rw [cxlFree, hrm]
    have main := cxlFree_inv hN inv hfr
    rw [hfr]
    exact ⟨main.1, fun hf ha => ⟨(main.2.2 hf ha).1, (main.2.2 hf ha).2.1⟩⟩

/-! ## Reachability invariants -/

theorem ReachA_inv {N : Nat} (hN : N < 2 ^ 64) {s : AState} (h : ReachA N s) :
    AInv N s := by
  induction h with
  | init => exact AInv_init N
  | step_alloc s size k _ hk ih => exact (cxlAllocate_state_inv hN s size k hk ih).1
  | step_free s off _ ih => exact (cxlFree_state_inv hN s off ih).1

theorem PosReachA_inv {N : Nat} (hN : N < 2 ^ 64) {s : AState} (h : PosReachA N s) :
    AInv N s ∧ allPos s.free ∧ allPos s.alloc := by
  induction h with
  | init hpos =>
    refine ⟨AInv_init N, ?_, ?_⟩
    · intro b hb
      rw [List.mem_singleton.mp hb]
      exact hpos
    · intro b hb
      simp [initState] at hb
  | step_alloc s size k _ hk hszpos hszw ih =>
    obtain ⟨inv, pf, pa⟩ := ih
    have main := cxlAllocate_state_inv hN s size k hk inv
    have hzpos : 0 < alignC size (2 ^ k) := by
      obtain ⟨h1, _⟩ := alignC_no_wrap hk hszw
      omega
    exact ⟨main.1, (main.2 pf pa hzpos).1, (main.2 pf pa hzpos).2⟩
  | step_free s off _ ih =>
    obtain ⟨inv, pf, pa⟩ := ih
    have main := cxlFree_state_inv hN s off inv
    exact ⟨main.1, (main.2 pf pa).1, (main.2 pf pa).2⟩

theorem PosReachA_ReachA {N : Nat} {s : AState} (h : PosReachA N s) : ReachA N s := by
  induction h with
  | init _ => exact ReachA.init
  | step_alloc s size k _ hk _ _ ih => exact ReachA.step_alloc s size k ih hk
  | step_free s off _ ih => exact ReachA.step_free s off ih

/-! ## The stats accumulator -/

theorem statSum_aux :
    ∀ (l : List Block) (acc : Nat), acc + bSum l < 2 ^ 64 →
      List.foldl (fun acc b => m64 (acc + b.2)) acc l = acc + bSum l := by
  intro l
  induction l with
  | nil =>
    intro acc _
    simp [bSum]
  | cons b rest ih =>
    intro acc hlt
    simp only [bSum, List.map_cons, List.sum_cons] at hlt
    rw [List.foldl_cons]
    have hm : m64 (acc + b.2) = acc + b.2 := m64_eq_of_lt (by omega)
    rw [hm, ih (acc + b.2) (by simp only [bSum]; omega)]
    simp only [bSum, List.map_cons, List.sum_cons]
    omega

theorem statSum_eq_bSum {l : List Block} (h : bSum l < 2 ^ 64) : statSum l = bSum l := by
  rw [statSum, statSum_aux l 0 (by omega)]
  omega

/-! ## Support lemmas for the claim theorems -/

theorem cxlFree_true_iff (s : AState) (off : Nat) :
    (cxlFree s off).1 = true ↔ ∃ b ∈ s.alloc, b.1 = off := by
  rw [cxlFree]
  rcases hrm : removeAlloc off s.alloc with _ | p
  · constructor
    · intro h
      cases h
    · intro ⟨b, hb, hoff⟩
      exact absurd hoff (removeAlloc_none_iff.mp hrm b hb)
  · rcases p with ⟨sz, al⟩
    constructor
    · intro _
      obtain ⟨pre, suf, hal1, _, _⟩ := removeAlloc_spec hrm
      exact ⟨(off, sz), by rw [hal1]; simp, rfl⟩
    · intro _
      rfl

theorem cxlFree_false_state (s : AState) (off : Nat)
    (h : (cxlFree s off).1 = false) : (cxlFree s off).2 = s := by
  rw [cxlFree] at h ⊢
  rcases hrm : removeAlloc off s.alloc with _ | p
  · rfl
  · rcases p with ⟨sz, al⟩
    rw [hrm] at h
    cases h

theorem bSum_mem_le {b : Block} {l : List Block} (h : b ∈ l) : b.2 ≤ bSum l := by
  induction l with
  | nil => cases h
  | cons c rest ih =>
    rcases List.mem_cons.mp h with rfl | h'
    · simp only [bSum, List.map_cons, List.sum_cons]
      omega
    · have := ih h'
      simp only [bSum, List.map_cons, List.sum_cons] at *
      omega

/-- The alignment waste of any block offset is below the alignment, even
when the aligned-offset computation wraps. -/
theorem waste_le {b1 k : Nat} (hk : k < 64) (hb1 : b1 < 2 ^ 64) :
    sub64 (alignC b1 (2 ^ k)) b1 ≤ 2 ^ k - 1 := by
  have hk2 : (2:Nat) ^ k ≤ 2 ^ 63 := Nat.pow_le_pow_right (by omega) (by omega)
  have hkpos : 0 < (2:Nat) ^ k := Nat.pos_pow_of_pos k (by omega)
  by_cases hcz : b1 + (2 ^ k - 1) < 2 ^ 64
  · obtain ⟨h1, h2⟩ := alignC_no_wrap hk hcz
    rw [sub64_exact h1 (alignC_lt hk)]
    omega
  · push_neg at hcz
    have hb1pos : 0 < b1 := by omega
    have htmod : (b1 + (2 ^ k - 1)) % 2 ^ 64 = b1 + (2 ^ k - 1) - 2 ^ 64 := by omega
    have htlt : b1 + (2 ^ k - 1) - 2 ^ 64 < 2 ^ k := by omega
    have hal0 : alignC b1 (2 ^ k) = 0 := by
      rw [alignC_eq hk, htmod, Nat.mod_eq_of_lt htlt]
      omega
    rw [hal0, sub64_of_lt hb1pos (by omega)]
    omega

/-! ## Claim theorems: block allocator -/

/-- Claim C1: after every sequence of `allocate`/`free` calls the stats are
`(total, used, free)` with `total` the region size, `used` the sum of the
allocated extent lengths, `free` the sum of the free extent lengths, and
`total = used + free`. -/
theorem C1_stats_invariant (N : Nat) (s : AState) (hN : N < 2 ^ 64) (hr : ReachA N s) :
    getStats N s = (N, bSum s.alloc, bSum s.free) ∧
    (getStats N s).1 = (getStats N s).2.1 + (getStats N s).2.2 := by
  have inv := ReachA_inv hN hr
  have hsum := inv.sum_eq
  have h1 : statSum s.alloc = bSum s.alloc := statSum_eq_bSum (by omega)
  have h2 : statSum s.free = bSum s.free := statSum_eq_bSum (by omega)
  constructor
  · rw [getStats, h1, h2]
  · simp only [getStats, h1, h2]
    omega

theorem C1_stats_invariant_witness :
    getStats 1024 (AState.mk [(128, 896)] [(0, 128)])
      = (1024, bSum (AState.mk [(128, 896)] [(0, 128)]).alloc,
          bSum (AState.mk [(128, 896)] [(0, 128)]).free) ∧
    (getStats 1024 (AState.mk [(128, 896)] [(0, 128)])).1
      = (getStats 1024 (AState.mk [(128, 896)] [(0, 128)])).2.1
        + (getStats 1024 (AState.mk [(128, 896)] [(0, 128)])).2.2 := by
  have hr : ReachA 1024 (cxlAllocate 1024 (initState 1024) 100 (2 ^ 6)).2 :=
    ReachA.step_alloc (initState 1024) 100 6 ReachA.init (by omega)
  rw [(by decide : (cxlAllocate 1024 (initState 1024) 100 (2 ^ 6)).2
      = AState.mk [(128, 896)] [(0, 128)])] at hr
  exact C1_stats_invariant 1024 (AState.mk [(128, 896)] [(0, 128)]) (by norm_num) hr

/-- Claim C2 is refuted by the code: after a reachable sequence of calls
(region of 15 bytes, alignment 1: allocate 5, allocate 0, free both,
allocate 10, free it) the free list after a successful release still
contains the abutting pair `(0,10)` and `(10,5)`.  The zero-size
allocation plants a stale zero-length extent between them, and the
single coalescing pass only merges neighbours in sorted order. -/
theorem C2_counterexample :
    ReachA 15 (AState.mk [(5, 0), (10, 5)] [(0, 10)]) ∧
    cxlFree (AState.mk [(5, 0), (10, 5)] [(0, 10)]) 0
      = (true, AState.mk [(0, 10), (5, 0), (10, 5)] []) ∧
    ¬ List.Pairwise (fun b c : Block => b.1 + b.2 ≠ c.1 ∧ c.1 + c.2 ≠ b.1)
        (AState.mk [(0, 10), (5, 0), (10, 5)] []).free := by
  refine ⟨?_, by simp +decide [cxlFree, removeAlloc, sortBlocks, insertBlock, coalesceBlocks, lexLe, m64], by decide⟩
  have r1 : ReachA 15 (cxlAllocate 15 (initState 15) 5 (2 ^ 0)).2 :=
    ReachA.step_alloc (initState 15) 5 0 ReachA.init (by omega)
  rw [(by decide : (cxlAllocate 15 (initState 15) 5 (2 ^ 0)).2
      = AState.mk [(5, 10)] [(0, 5)])] at r1
  have r2 : ReachA 15 (cxlAllocate 15 (AState.mk [(5, 10)] [(0, 5)]) 0 (2 ^ 0)).2 :=
    ReachA.step_alloc _ 0 0 r1 (by omega)
  rw [(by decide : (cxlAllocate 15 (AState.mk [(5, 10)] [(0, 5)]) 0 (2 ^ 0)).2
      = AState.mk [(5, 10)] [(0, 5), (5, 0)])] at r2
  have r3 : ReachA 15 (cxlFree (AState.mk [(5, 10)] [(0, 5), (5, 0)]) 0).2 :=
    ReachA.step_free _ 0 r2
  rw [(by simp +decide [cxlFree, removeAlloc, sortBlocks, insertBlock, coalesceBlocks, lexLe, m64] :
      (cxlFree (AState.mk [(5, 10)] [(0, 5), (5, 0)]) 0).2
        = AState.mk [(0, 15)] [(5, 0)])] at r3
  have r4 : ReachA 15 (cxlFree (AState.mk [(0, 15)] [(5, 0)]) 5).2 :=
    ReachA.step_free _ 5 r3
  rw [(by simp +decide [cxlFree, removeAlloc, sortBlocks, insertBlock, coalesceBlocks, lexLe, m64] :
      (cxlFree (AState.mk [(0, 15)] [(5, 0)]) 5).2
        = AState.mk [(0, 15), (5, 0)] [])] at r4
  have r5 : ReachA 15 (cxlAllocate 15 (AState.mk [(0, 15), (5, 0)] []) 10 (2 ^ 0)).2 :=
    ReachA.step_alloc _ 10 0 r4 (by omega)
  rw [(by decide : (cxlAllocate 15 (AState.mk [(0, 15), (5, 0)] []) 10 (2 ^ 0)).2
      = AState.mk [(5, 0), (10, 5)] [(0, 10)])] at r5
  exact r5

/-- Claim C2 (amended): after every successful release on a positive-size
region, in traces where every `allocate` requests a positive size whose
rounding does not wrap, no free extent abuts another in either direction. -/
theorem C2_no_adjacent_free_amended (N : Nat) (s s' : AState) (off : Nat)
    (hN : N < 2 ^ 64) (hr : PosReachA N s) (h : cxlFree s off = (true, s')) :
    List.Pairwise (fun b c : Block => b.1 + b.2 ≠ c.1 ∧ c.1 + c.2 ≠ b.1) s'.free := by
  obtain ⟨inv, pf, pa⟩ := PosReachA_inv hN hr
  exact ((cxlFree_inv hN inv h).2.2 pf pa).2.2

theorem C2_no_adjacent_free_amended_witness :
    List.Pairwise (fun b c : Block => b.1 + b.2 ≠ c.1 ∧ c.1 + c.2 ≠ b.1)
      (AState.mk [(0, 1024)] []).free := by
  have hr : PosReachA 1024 (cxlAllocate 1024 (initState 1024) 100 (2 ^ 6)).2 :=
    PosReachA.step_alloc (initState 1024) 100 6 (PosReachA.init (by omega))
      (by omega) (by omega) (by norm_num)
  rw [(by decide : (cxlAllocate 1024 (initState 1024) 100 (2 ^ 6)).2
      = AState.mk [(128, 896)] [(0, 128)])] at hr
  exact C2_no_adjacent_free_amended 1024 (AState.mk [(128, 896)] [(0, 128)])
    (AState.mk [(0, 1024)] []) 0 (by norm_num) hr
    (by simp +decide [cxlFree, removeAlloc, sortBlocks, insertBlock, coalesceBlocks, lexLe, m64])

/-- Claim C3 is refuted on the rounding clause: `allocate(2^64 - 1, 64)` on
a fresh 1024-byte region succeeds (the `size_t` expression
`(size + 63) & ~63` wraps to `0`), yet the recorded size `0` is not the
requested size rounded up (it is smaller than the request). -/
theorem C3_counterexample :
    cxlAllocate 1024 (initState 1024) (2 ^ 64 - 1) 64
      = (some 0, AState.mk [(0, 1024)] [(0, 0)]) ∧
    alignC (2 ^ 64 - 1) 64 = 0 ∧
    ¬ (2 ^ 64 - 1 ≤ alignC (2 ^ 64 - 1) 64) := by
  refine ⟨by decide, by decide, by decide⟩

/-- Claim C3 (amended): every successful `allocate(size, 2^k)` on a
reachable state returns an offset that is a multiple of the alignment,
records the extent `[offset, offset + rounded)` inside the region, and —
whenever `size + alignment - 1` does not exceed `2^64 - 1` — the rounded
size is the least multiple of the alignment that is at least `size`.
The concrete scenario holds: on a fresh 1024-byte region
`allocate(100, 64)` returns offset 0 and `allocate(200, 64)` returns
offset 128. -/
theorem C3_alignment_amended :
    (∀ (N : Nat) (s : AState) (size k off : Nat) (s' : AState),
        N < 2 ^ 64 → k < 64 → ReachA N s →
        cxlAllocate N s size (2 ^ k) = (some off, s') →
        off % 2 ^ k = 0 ∧ off + alignC size (2 ^ k) ≤ N ∧
          s'.alloc = s.alloc ++ [(off, alignC size (2 ^ k))] ∧
          (size + (2 ^ k - 1) < 2 ^ 64 →
            size ≤ alignC size (2 ^ k) ∧ alignC size (2 ^ k) < size + 2 ^ k ∧
              alignC size (2 ^ k) % 2 ^ k = 0)) ∧
    (cxlAllocate 1024 (initState 1024) 100 64).1 = some 0 ∧
    (cxlAllocate 1024 (cxlAllocate 1024 (initState 1024) 100 64).2 200 64).1 = some 128 := by
  refine ⟨?_, by decide, by decide⟩
  intro N s size k off s' hN hk hr heq
  have main := cxlAllocate_some hN hk (ReachA_inv hN hr) heq
  refine ⟨main.2.2.1, main.2.2.2.1, main.2.2.2.2, ?_⟩
  intro hnw
  obtain ⟨h1, h2⟩ := alignC_no_wrap hk hnw
  exact ⟨h1, h2, alignC_mod hk⟩

theorem C3_alignment_amended_witness :
    (0 % 2 ^ 6 = 0 ∧ 0 + alignC 100 (2 ^ 6) ≤ 1024) ∧
    (100 ≤ alignC 100 (2 ^ 6) ∧ alignC 100 (2 ^ 6) < 100 + 2 ^ 6) := by
  have h := C3_alignment_amended.1 1024 (initState 1024) 100 6 0
    (AState.mk [(128, 896)] [(0, 128)]) (by norm_num) (by omega) ReachA.init (by decide)
  exact ⟨⟨h.1, h.2.1⟩, ⟨(h.2.2.2 (by norm_num)).1, (h.2.2.2 (by norm_num)).2.1⟩⟩

/-- Claim C4 is refuted on the double-release clause: two zero-size
allocations both return offset 0, and two consecutive releases of offset
0 — with no intervening re-allocation — both succeed, because two live
allocated extents share the start offset 0. -/
theorem C4_counterexample :
    cxlAllocate 1024 (initState 1024) 0 64 = (some 0, AState.mk [(0, 1024)] [(0, 0)]) ∧
    cxlAllocate 1024 (AState.mk [(0, 1024)] [(0, 0)]) 0 64
      = (some 0, AState.mk [(0, 1024)] [(0, 0), (0, 0)]) ∧
    (cxlFree (AState.mk [(0, 1024)] [(0, 0), (0, 0)]) 0).1 = true ∧
    (cxlFree (cxlFree (AState.mk [(0, 1024)] [(0, 0), (0, 0)]) 0).2 0).1 = true := by
  refine ⟨by decide, by decide, by decide, ?_⟩
  simp +decide [cxlFree, removeAlloc, sortBlocks, insertBlock, coalesceBlocks, lexLe, m64]

/-- Claim C4 (amended): `free(offset)` succeeds exactly when some live
allocated extent starts at `offset` (an interior offset is rejected and
the state is unchanged on failure); and in traces whose allocations all
have positive, non-wrapping sizes, a second release of the same offset
fails and leaves the state unchanged. -/
theorem C4_release_exact_amended :
    (∀ (s : AState) (off : Nat),
        ((cxlFree s off).1 = true ↔ ∃ b ∈ s.alloc, b.1 = off) ∧
        ((cxlFree s off).1 = false → (cxlFree s off).2 = s)) ∧
    (∀ (N : Nat) (s s' : AState) (off : Nat), N < 2 ^ 64 → PosReachA N s →
        cxlFree s off = (true, s') →
        (cxlFree s' off).1 = false ∧ (cxlFree s' off).2 = s') := by
  constructor
  · intro s off
    exact ⟨cxlFree_true_iff s off, cxlFree_false_state s off⟩
  · intro N s s' off hN hr h
    obtain ⟨inv, _, pa⟩ := PosReachA_inv hN hr
    have hpwAlloc : List.Pairwise pdisj s.alloc :=
      (List.pairwise_append.mp inv.disj).2.1
    rw [cxlFree] at h
    rcases hrm : removeAlloc off s.alloc with _ | p
    · rw [hrm] at h
      exact absurd (congrArg Prod.fst h) (by simp)
    · rcases p with ⟨sz, al⟩
      rw [hrm] at h
      rw [Prod.mk.injEq] at h
      obtain ⟨_, hs'⟩ := h
      have halloc : s'.alloc = al := by
        rw [← hs']
      obtain ⟨pre, suf, hal1, hal2, _⟩ := removeAlloc_spec hrm
      have hszpos : 0 < sz := pa (off, sz) (by rw [hal1]; simp)
      have hnone : ∀ b ∈ s'.alloc, b.1 ≠ off := by
        intro b hb
        rw [halloc, hal2] at hb
        have hbpos : 0 < b.2 := pa b (by rw [hal1]; rcases List.mem_append.mp hb with h' | h' <;> simp [h'])
        rcases List.mem_append.mp hb with h' | h'
        · -- b before the removed extent
          have hpd : pdisj b (off, sz) := by
            have := hpwAlloc
            rw [hal1] at this
            have h2 := (List.pairwise_append.mp this).2.2 b h' (off, sz) (by simp)
            exact h2
          simp only [pdisj] at hpd
          intro hcon
          omega
        · -- b after the removed extent
          have hpd : pdisj (off, sz) b := by
            have := hpwAlloc
            rw [hal1] at this
            have h2 := (List.pairwise_append.mp this).2.1
            exact (List.pairwise_cons.mp h2).1 b h'
          simp only [pdisj] at hpd
          intro hcon
          omega
      have hrm2 : removeAlloc off s'.alloc = none := removeAlloc_none_iff.mpr hnone
      constructor
      · rw [cxlFree, hrm2]
      · rw [cxlFree, hrm2]

theorem C4_release_exact_amended_witness :
    ((cxlFree (AState.mk [(128, 896)] [(0, 128)]) 64).1 = false ∧
      (cxlFree (AState.mk [(128, 896)] [(0, 128)]) 64).2
        = AState.mk [(128, 896)] [(0, 128)]) ∧
    (cxlFree (AState.mk [(0, 1024)] []) 0).1 = false := by
  constructor
  · constructor
    · by_contra hcon
      have h := (C4_release_exact_amended.1 (AState.mk [(128, 896)] [(0, 128)]) 64).1
      rw [Bool.not_eq_false] at hcon
      obtain ⟨b, hb, hoff⟩ := h.mp hcon
      simp at hb
      rw [hb] at hoff
      simp at hoff
    · exact (C4_release_exact_amended.1 (AState.mk [(128, 896)] [(0, 128)]) 64).2 (by decide)
  · have hr : PosReachA 1024 (cxlAllocate 1024 (initState 1024) 100 (2 ^ 6)).2 :=
      PosReachA.step_alloc (initState 1024) 100 6 (PosReachA.init (by omega))
        (by omega) (by omega) (by norm_num)
    rw [(by decide : (cxlAllocate 1024 (initState 1024) 100 (2 ^ 6)).2
        = AState.mk [(128, 896)] [(0, 128)])] at hr
    exact (C4_release_exact_amended.2 1024 (AState.mk [(128, 896)] [(0, 128)])
      (AState.mk [(0, 1024)] []) 0 (by norm_num) hr
      (by simp +decide [cxlFree, removeAlloc, sortBlocks, insertBlock, coalesceBlocks, lexLe, m64])).1

/-- Claim C5 is refuted on the zero-size clause: `allocate(0, 64)` on a
fresh 1024-byte region is not rejected; it succeeds and returns offset 0
(recording a zero-length extent). -/
theorem C5_counterexample :
    (cxlAllocate 1024 (initState 1024) 0 64).1 = some 0 ∧
    (cxlAllocate 1024 (initState 1024) 0 64).1 ≠ none := by
  refine ⟨by decide, by decide⟩

/-- Claim C5 (amended): `allocate` returns null in exactly two cases.
Either no free extent has length at least the rounded size plus that
extent's alignment waste — then the lists are untouched — or a free
extent fits but its aligned offset reaches the region size, and
`get_direct_pointer` returns null although the lists were already
mutated, leaving a stale record in `allocated_blocks`.  On reachable
states the second case forces the rounded size to be `0` and the aligned
offset to be exactly the region size, as on the 1024-byte trace
`allocate(1023, 1)` then `allocate(0, 64)`.  Zero size is not rejected:
there is no InvalidArgument path.  When the requested size exceeds the
total free space and the rounding does not wrap, the allocation fails
with the lists untouched. -/
theorem C5_failure_amended :
    (∀ (N : Nat) (s : AState) (size a : Nat),
        ((cxlAllocate N s size a).1 = none ↔
          (∀ b ∈ s.free, ¬ fitsB (alignC size a) a b) ∨
          (∃ o fl, allocScan (alignC size a) a s.free = some (o, fl) ∧ N ≤ o)) ∧
        ((∀ b ∈ s.free, ¬ fitsB (alignC size a) a b) →
          (cxlAllocate N s size a).2 = s)) ∧
    (∀ (N : Nat) (s : AState) (size k o : Nat) (fl : List Block),
        N < 2 ^ 64 → k < 64 → ReachA N s →
        allocScan (alignC size (2 ^ k)) (2 ^ k) s.free = some (o, fl) → N ≤ o →
        alignC size (2 ^ k) = 0 ∧ o = N ∧
        cxlAllocate N s size (2 ^ k) = (none, ⟨fl, s.alloc ++ [(o, 0)]⟩)) ∧
    (∀ (N : Nat) (s : AState) (size k : Nat), N < 2 ^ 64 → k < 64 → ReachA N s →
        size + (2 ^ k - 1) < 2 ^ 64 → bSum s.free < size →
        (cxlAllocate N s size (2 ^ k)).1 = none ∧
          (cxlAllocate N s size (2 ^ k)).2 = s) ∧
    cxlAllocate 1024 (AState.mk [(1023, 1)] [(0, 1023)]) 0 64
      = (none, AState.mk [(1023, 1)] [(0, 1023), (1024, 0)]) := by
  have hbase : ∀ (N : Nat) (s : AState) (size a : Nat),
      ((cxlAllocate N s size a).1 = none ↔
        (∀ b ∈ s.free, ¬ fitsB (alignC size a) a b) ∨
        (∃ o fl, allocScan (alignC size a) a s.free = some (o, fl) ∧ N ≤ o)) ∧
      ((∀ b ∈ s.free, ¬ fitsB (alignC size a) a b) →
        (cxlAllocate N s size a).2 = s) := by
    intro N s size a
    rcases hscan : allocScan (alignC size a) a s.free with _ | p
    · have h1 : (cxlAllocate N s size a).1 = none := by
        simp [cxlAllocate, hscan]
      have h2 : (cxlAllocate N s size a).2 = s := by
        simp [cxlAllocate, hscan]
      exact ⟨⟨fun _ => Or.inl (allocScan_none_iff.mp hscan), fun _ => h1⟩, fun _ => h2⟩
    · rcases p with ⟨o, fl⟩
      have hfst : (cxlAllocate N s size a).1 = if o < N then some o else none := by
        simp [cxlAllocate, hscan]
      constructor
      · rw [hfst]
        constructor
        · intro h
          by_cases ho : o < N
          · rw [if_pos ho] at h
            cases h
          · exact Or.inr ⟨o, fl, rfl, by omega⟩
        · intro h
          rcases h with h | ⟨o', fl', hscan', hge⟩
          · have h2 : allocScan (alignC size a) a s.free = none := allocScan_none_iff.mpr h
            rw [h2] at hscan
            cases hscan
          · injection hscan' with hp
            injection hp with ho' hfl'
            rw [if_neg (by omega)]
      · intro h
        have : allocScan (alignC size a) a s.free = none := allocScan_none_iff.mpr h
        rw [this] at hscan
        cases hscan
  have hnull : ∀ (N : Nat) (s : AState) (size k o : Nat) (fl : List Block),
      N < 2 ^ 64 → k < 64 → ReachA N s →
      allocScan (alignC size (2 ^ k)) (2 ^ k) s.free = some (o, fl) → N ≤ o →
      alignC size (2 ^ k) = 0 ∧ o = N ∧
      cxlAllocate N s size (2 ^ k) = (none, ⟨fl, s.alloc ++ [(o, 0)]⟩) := by
    intro N s size k o fl hN hk hr hscan hge
    have main := allocFit_inv hN hk (ReachA_inv hN hr) hscan
    have hbound : o + alignC size (2 ^ k) ≤ N := main.2.2.1
    have h0 : alignC size (2 ^ k) = 0 := by omega
    refine ⟨h0, by omega, ?_⟩
    have hres : cxlAllocate N s size (2 ^ k)
        = (if o < N then some o else none,
            ⟨fl, s.alloc ++ [(o, alignC size (2 ^ k))]⟩) := by
      simp [cxlAllocate, hscan]
    rw [hres, if_neg (by omega), h0]
  refine ⟨fun N s size a => hbase N s size a, hnull, ?_, by decide⟩
  intro N s size k hN hk hr hnw hfree
  have inv := ReachA_inv hN hr
  have hle1 : size ≤ alignC size (2 ^ k) := (alignC_no_wrap hk hnw).1
  have hsmax : alignC size (2 ^ k) ≤ 2 ^ 64 - 2 ^ k := alignC_le_max hk
  have hfail : ∀ b ∈ s.free, ¬ fitsB (alignC size (2 ^ k)) (2 ^ k) b := by
    intro b hb
    have hb1 : b.1 < 2 ^ 64 := by
      have := inv.bf b hb
      omega
    have hw := waste_le hk hb1
    have hkpos : (0:Nat) < 2 ^ k := Nat.pos_pow_of_pos k (by omega)
    have hno : m64 (alignC size (2 ^ k) + sub64 (alignC b.1 (2 ^ k)) b.1)
        = alignC size (2 ^ k) + sub64 (alignC b.1 (2 ^ k)) b.1 :=
      m64_eq_of_lt (by omega)
    rw [fitsB, hno]
    have hb2 : b.2 ≤ bSum s.free := bSum_mem_le hb
    omega
  have hnone : (cxlAllocate N s size (2 ^ k)).1 = none :=
    ((hbase N s size (2 ^ k)).1).mpr (Or.inl hfail)
  exact ⟨hnone, (hbase N s size (2 ^ k)).2 hfail⟩

theorem C5_failure_amended_witness :
    (2048 + (2 ^ 6 - 1) < 2 ^ 64 ∧ bSum (initState 1024).free < 2048 ∧
      (cxlAllocate 1024 (initState 1024) 2048 (2 ^ 6)).1 = none ∧
      (cxlAllocate 1024 (initState 1024) 2048 (2 ^ 6)).2 = initState 1024) ∧
    (allocScan (alignC 0 (2 ^ 6)) (2 ^ 6) (AState.mk [(1023, 1)] [(0, 1023)]).free
        = some (1024, [(1023, 1)]) ∧
      alignC 0 (2 ^ 6) = 0 ∧
      cxlAllocate 1024 (AState.mk [(1023, 1)] [(0, 1023)]) 0 (2 ^ 6)
        = (none, AState.mk [(1023, 1)] [(0, 1023), (1024, 0)])) := by
  constructor
  · have h := C5_failure_amended.2.2.1 1024 (initState 1024) 2048 6 (by norm_num)
      (by omega) ReachA.init (by norm_num) (by simp [initState, bSum])
    exact ⟨by norm_num, by simp [initState, bSum], h.1, h.2⟩
  · have hr : ReachA 1024 (cxlAllocate 1024 (initState 1024) 1023 (2 ^ 0)).2 :=
      ReachA.step_alloc (initState 1024) 1023 0 ReachA.init (by omega)
    rw [(by decide : (cxlAllocate 1024 (initState 1024) 1023 (2 ^ 0)).2
        = AState.mk [(1023, 1)] [(0, 1023)])] at hr
    have h := C5_failure_amended.2.1 1024 (AState.mk [(1023, 1)] [(0, 1023)]) 0 6 1024
      [(1023, 1)] (by norm_num) (by omega) hr (by decide) (by omega)
    exact ⟨by decide, h.1, h.2.2⟩

/-- Claim C10: after every successful release, the free list is sorted in
strictly increasing offset order (release sorts the whole list before
coalescing, and coalescing keeps the order). -/
theorem C10_sorted_after_release (N : Nat) (s s' : AState) (off : Nat)
    (hN : N < 2 ^ 64) (hr : ReachA N s) (h : cxlFree s off = (true, s')) :
    List.Pairwise (fun b c : Block => b.1 < c.1) s'.free :=
  (cxlFree_inv hN (ReachA_inv hN hr) h).2.1

theorem C10_sorted_after_release_witness :
    List.Pairwise (fun b c : Block => b.1 < c.1) (AState.mk [(0, 1024)] []).free := by
  have hr : ReachA 1024 (cxlAllocate 1024 (initState 1024) 100 (2 ^ 6)).2 :=
    ReachA.step_alloc (initState 1024) 100 6 ReachA.init (by omega)
  rw [(by decide : (cxlAllocate 1024 (initState 1024) 100 (2 ^ 6)).2
      = AState.mk [(128, 896)] [(0, 128)])] at hr
  exact C10_sorted_after_release 1024 (AState.mk [(128, 896)] [(0, 128)])
    (AState.mk [(0, 1024)] []) 0 (by norm_num) hr
    (by simp +decide [cxlFree, removeAlloc, sortBlocks, insertBlock, coalesceBlocks, lexLe, m64])

/-! ## Claim theorems: Region bounds checking -/

/-- Claim C6 is refuted on the exact-arithmetic clause: with a ready
10-byte region, `write_data(2^64 - 1, buf, 2)` passes the bounds check
because the `size_t` sum `offset + length` wraps to 1, although with
exact integer arithmetic `offset + length > size`. -/
theorem C6_counterexample :
    (write_data (acquireRegion 10 (fun _ => 0)) (2 ^ 64 - 1) (fun _ => 0) 2).1
      = RWResult.ok ∧
    (read_data (acquireRegion 10 (fun _ => 0)) (2 ^ 64 - 1) 2).1 = RWResult.ok ∧
    10 < 2 ^ 64 - 1 + 2 := by
  refine ⟨?_, ?_, by norm_num⟩
  · rw [write_data]
    norm_num [acquireRegion, m64]
  · rw [read_data]
    norm_num [acquireRegion, m64]

/-- Claim C6 (amended): for a non-ready region every access fails with
NotReady; for a ready region and non-wrapping `offset + length`, the
access fails with OutOfBounds exactly when `offset + length > size`
(so `offset + length = size` succeeds and `size + 1` fails); a
successful write stores exactly `length` bytes at `[offset,
offset+length)` and leaves all other bytes unchanged, and a successful
read returns exactly the `length` bytes starting at `offset`.  The
region is non-ready before `initialize` and after `cleanup`. -/
theorem C6_bounds_amended :
    (∀ (r : CRegion) (offset length : Nat) (src : Nat → Nat),
        (r.ready = false →
          write_data r offset src length = (RWResult.notReady, r) ∧
          read_data r offset length = (RWResult.notReady, [])) ∧
        (r.ready = true → offset + length < 2 ^ 64 →
          (((write_data r offset src length).1 = RWResult.outOfBounds) ↔
              r.region_size < offset + length) ∧
          (((read_data r offset length).1 = RWResult.outOfBounds) ↔
              r.region_size < offset + length) ∧
          (offset + length ≤ r.region_size →
            (write_data r offset src length).1 = RWResult.ok ∧
            (write_data r offset src length).2.region_size = r.region_size ∧
            (∀ i, offset ≤ i → i < offset + length →
              (write_data r offset src length).2.data i = src (i - offset)) ∧
            (∀ i, i < offset ∨ offset + length ≤ i →
              (write_data r offset src length).2.data i = r.data i) ∧
            (read_data r offset length).1 = RWResult.ok ∧
            (read_data r offset length).2
              = (List.range length).map (fun i => r.data (offset + i)) ∧
            (read_data r offset length).2.length = length))) ∧
    (∀ r : CRegion, (cleanupRegion r).ready = false) ∧ mkRegion.ready = false := by
  refine ⟨?_, fun r => rfl, rfl⟩
  intro r offset length src
  constructor
  · intro hready
    rw [write_data, read_data, if_pos hready, if_pos hready]
    exact ⟨rfl, rfl⟩
  · intro hready hnw
    have hnotf : ¬ (r.ready = false) := by rw [hready]; simp
    have hm : m64 (offset + length) = offset + length := m64_eq_of_lt hnw
    by_cases hoob : r.region_size < offset + length
    · refine ⟨?_, ?_, ?_⟩
      · rw [write_data, if_neg hnotf, hm, if_pos hoob]
        simp [hoob]
      · rw [read_data, if_neg hnotf, hm, if_pos hoob]
        simp [hoob]
      · intro hle
        omega
    · push_neg at hoob
      refine ⟨?_, ?_, ?_⟩
      · rw [write_data, if_neg hnotf, hm, if_neg (by omega)]
        simp
        omega
      · rw [read_data, if_neg hnotf, hm, if_neg (by omega)]
        simp
        omega
      · intro _
        rw [write_data, read_data, if_neg hnotf, if_neg hnotf, hm,
          if_neg (by omega), if_neg (by omega)]
        refine ⟨rfl, rfl, ?_, ?_, rfl, rfl, by simp⟩
        · intro i h1 h2
          simp only
          rw [if_pos ⟨h1, h2⟩]
        · intro i h
          simp only
          rw [if_neg (by omega)]

theorem C6_bounds_amended_witness :
    (write_data (acquireRegion 10 (fun i => i)) 4 (fun _ => 7) 6).1 = RWResult.ok ∧
    ((read_data (acquireRegion 10 (fun i => i)) 4 7).1 = RWResult.outOfBounds ↔
      (10:Nat) < 4 + 7) ∧
    (read_data (acquireRegion 10 (fun i => i)) 4 6).2.length = 6 := by
  have h1 := (C6_bounds_amended.1 (acquireRegion 10 (fun i => i)) 4 6 (fun _ => 7)).2
    rfl (by norm_num)
  have h2 := (C6_bounds_amended.1 (acquireRegion 10 (fun i => i)) 4 7 (fun _ => 7)).2
    rfl (by norm_num)
  have hred : (acquireRegion 10 (fun i : Nat => i)).region_size = 10 := rfl
  refine ⟨(h1.2.2 (by rw [hred])).1, ?_, (h1.2.2 (by rw [hred])).2.2.2.2.2.2⟩
  rw [hred] at h2
  exact h2.2.1

/-! ## Command channel (`cxl_fpga_driver.c` + `CXLDeviceDriver`)

The kernel keeps a `cmd_list` of in-flight commands; `CXL_MEM_SEND_COMMAND`
appends a command with the user-supplied id and status ACTIVE;
`CXL_MEM_QUERY_CMD` reports the first command with a matching id and
removes it when its status is terminal, or reports INVALID when no
command matches.  The userspace `CXLDeviceDriver::send_command` always
submits with `cmd.id = 0` (`cxl_system.cpp` line 279). -/

def CXL_CMD_STATUS_ACTIVE : Nat := 0
def CXL_CMD_STATUS_COMPLETED : Nat := 1
def CXL_CMD_STATUS_ERROR : Nat := 2
def CXL_CMD_STATUS_INVALID : Nat := 3

structure KCmd where
  id : Nat
  opcode : Nat
  address : Nat
  data : Nat
  status : Nat
  result : Nat
deriving DecidableEq

/-- `CXL_MEM_SEND_COMMAND` (driver lines 159-191): the command is copied
from user space, allocated zeroed (`kzalloc`, so `result = 0`), marked
ACTIVE and appended (`list_add_tail`). -/
def kernSubmit (l : List KCmd) (uid opcode address data : Nat) : List KCmd :=
  l ++ [⟨uid, opcode, address, data, CXL_CMD_STATUS_ACTIVE, 0⟩]

/-- `CXL_MEM_QUERY_CMD` (driver lines 193-222): scan `cmd_list` for the
first command with the queried id; if found, report its (status, result)
and delete it from the list when the status is terminal; otherwise report
`CXL_CMD_STATUS_INVALID`. -/
def kernQuery : List KCmd → Nat → (Nat × Nat) × List KCmd
  | [], _ => ((CXL_CMD_STATUS_INVALID, 0), [])
  | c :: rest, qid =>
    if c.id = qid then
      if c.status ≠ CXL_CMD_STATUS_ACTIVE then ((c.status, c.result), rest)
      else ((c.status, c.result), c :: rest)
    else
      ((kernQuery rest qid).1, c :: (kernQuery rest qid).2)

/-- `CXLDeviceDriver::send_command` (cxl_system.cpp lines 272-291): the
user side always sets `cmd.id = 0` before issuing the ioctl. -/
def sendCommand (l : List KCmd) (opcode address data : Nat) : List KCmd :=
  kernSubmit l 0 opcode address data

/-- The external execution collaborator marking an in-flight command
terminal (the kernel work handler `cxl_fpga_cmd_work` is an empty stub;
completion comes from the device side). -/
def completeCmd (l : List KCmd) (i : Nat) (st res : Nat) : List KCmd :=
  match l.get? i with
  | none => l
  | some c => l.set i ⟨c.id, c.opcode, c.address, c.data, st, res⟩

/-- Command-list states reachable through userspace submissions, device
completions and queries. -/
inductive DevReach : List KCmd → Prop
  | init : DevReach []
  | submit (l : List KCmd) (opcode address data : Nat) :
      DevReach l → DevReach (sendCommand l opcode address data)
  | complete (l : List KCmd) (i st res : Nat) : DevReach l →
      (∀ c, l.get? i = some c → c.status = CXL_CMD_STATUS_ACTIVE) →
      st ≠ CXL_CMD_STATUS_ACTIVE → DevReach (completeCmd l i st res)
  | query (l : List KCmd) (qid : Nat) : DevReach l → DevReach (kernQuery l qid).2

theorem kernQuery_no_match :
    ∀ {l : List KCmd} {k : Nat}, (∀ c ∈ l, c.id ≠ k) →
      kernQuery l k = ((CXL_CMD_STATUS_INVALID, 0), l) := by
  intro l
  induction l with
  | nil =>
    intro k _
    rfl
  | cons c rest ih =>
    intro k h
    rw [kernQuery, if_neg (h c (by simp)), ih fun d hd => h d (by simp [hd])]

/-- Claim C7 is refuted when two in-flight commands share an id — which the
userspace driver makes the norm by always submitting id 0: after two
submissions and the completion of the first, the first query of id 0
consumes the Completed result, but the second query finds the other
command and returns Pending, not Unknown. -/
theorem C7_counterexample :
    DevReach [KCmd.mk 0 1 0 0 1 5, KCmd.mk 0 2 64 0 0 0] ∧
    kernQuery [KCmd.mk 0 1 0 0 1 5, KCmd.mk 0 2 64 0 0 0] 0
      = ((1, 5), [KCmd.mk 0 2 64 0 0 0]) ∧
    (kernQuery [KCmd.mk 0 2 64 0 0 0] 0).1 = (0, 0) ∧
    ((0:Nat), (0:Nat)) ≠ (CXL_CMD_STATUS_INVALID, 0) := by
  refine ⟨?_, by decide, by decide, by decide⟩
  have d1 : DevReach [KCmd.mk 0 1 0 0 0 0] :=
    DevReach.submit [] 1 0 0 DevReach.init
  have d2 : DevReach [KCmd.mk 0 1 0 0 0 0, KCmd.mk 0 2 64 0 0 0] :=
    DevReach.submit _ 2 64 0 d1
  exact DevReach.complete _ 0 1 5 d2 (by decide) (by decide)

/-- Claim C7 (amended): for an id borne by exactly one in-flight command,
polling behaves as claimed: a Pending command is reported and kept; a
terminal command is reported exactly once and removed, after which the
same query returns Unknown (INVALID) and leaves the list unchanged — the
same answer as for an id that never existed. -/
theorem C7_poll_once_amended :
    (∀ (l : List KCmd) (k : Nat) (c : KCmd),
        l.filter (fun d => d.id == k) = [c] →
        (c.status ≠ CXL_CMD_STATUS_ACTIVE →
          (kernQuery l k).1 = (c.status, c.result) ∧
          ((kernQuery l k).2).filter (fun d => d.id == k) = [] ∧
          (kernQuery (kernQuery l k).2 k).1 = (CXL_CMD_STATUS_INVALID, 0) ∧
          (kernQuery (kernQuery l k).2 k).2 = (kernQuery l k).2) ∧
        (c.status = CXL_CMD_STATUS_ACTIVE → kernQuery l k = ((c.status, c.result), l))) ∧
    (∀ (l : List KCmd) (k : Nat),
        l.filter (fun d => d.id == k) = [] →
        kernQuery l k = ((CXL_CMD_STATUS_INVALID, 0), l)) := by
  have hempty : ∀ (l : List KCmd) (k : Nat),
      l.filter (fun d => d.id == k) = [] →
      kernQuery l k = ((CXL_CMD_STATUS_INVALID, 0), l) := by
    intro l k h
    refine kernQuery_no_match ?_
    intro c hc hck
    have : (fun d : KCmd => d.id == k) c = true := by simp [hck]
    have hmem : c ∈ l.filter (fun d => d.id == k) := List.mem_filter.mpr ⟨hc, this⟩
    rw [h] at hmem
    cases hmem
  refine ⟨?_, hempty⟩
  intro l
  induction l with
  | nil =>
    intro k c h
    cases h
  | cons d rest ih =>
    intro k c h
    by_cases hd : d.id = k
    · -- the head matches: it must be the unique match
      have hfilter : (d :: rest).filter (fun e => e.id == k)
          = d :: rest.filter (fun e => e.id == k) := by
        rw [List.filter_cons, if_pos (by simp [hd])]
      rw [hfilter, List.cons.injEq] at h
      obtain ⟨hdc, hrest⟩ := h
      constructor
      · intro hterm
        rw [kernQuery, if_pos hd, if_pos (by rw [hdc]; exact hterm)]
        refine ⟨by rw [hdc], hrest, ?_, ?_⟩
        · rw [hempty rest k hrest]
        · rw [hempty rest k hrest]
      · intro hact
        rw [kernQuery, if_pos hd, if_neg (by rw [hdc]; simp [hact])]
        rw [hdc]
    · -- the head does not match: recurse
      have hfilter : (d :: rest).filter (fun e => e.id == k)
          = rest.filter (fun e => e.id == k) := by
        rw [List.filter_cons, if_neg (by simp [hd])]
      rw [hfilter] at h
      have hrec := ih k c h
      constructor
      · intro hterm
        obtain ⟨h1, h2, h3, h4⟩ := hrec.1 hterm
        rw [kernQuery, if_neg hd]
        refine ⟨h1, ?_, ?_, ?_⟩
        · rw [List.filter_cons, if_neg (by simp [hd]), h2]
        · rw [kernQuery, if_neg hd, h3]
        · rw [kernQuery, if_neg hd, h4]
      · intro hact
        have h2 := hrec.2 hact
        rw [kernQuery, if_neg hd, h2]

theorem C7_poll_once_amended_witness :
    (kernQuery [KCmd.mk 7 1 0 0 1 9] 7).1 = (1, 9) ∧
    (kernQuery (kernQuery [KCmd.mk 7 1 0 0 1 9] 7).2 7).1
      = (CXL_CMD_STATUS_INVALID, 0) ∧
    kernQuery [KCmd.mk 7 1 0 0 0 4] 7 = ((0, 4), [KCmd.mk 7 1 0 0 0 4]) := by
  have h1 := (C7_poll_once_amended.1 [KCmd.mk 7 1 0 0 1 9] 7 (KCmd.mk 7 1 0 0 1 9)
    (by decide)).1 (by decide)
  have h2 := (C7_poll_once_amended.1 [KCmd.mk 7 1 0 0 0 4] 7 (KCmd.mk 7 1 0 0 0 4)
    (by decide)).2 (by decide)
  exact ⟨h1.1, h1.2.2.1, h2⟩

/-- Claim C8 identifies a code bug: `CXLDeviceDriver::send_command`
hardcodes `cmd.id = 0` (cxl_system.cpp line 279) and the kernel records
the user-supplied id verbatim, so two successive submissions both receive
id 0 — ids are neither fresh, nor unique, nor monotonically increasing,
and two in-flight commands share an id. -/
theorem C8_id_assignment_bug :
    sendCommand (sendCommand [] 1 0 0) 2 64 0
      = [KCmd.mk 0 1 0 0 CXL_CMD_STATUS_ACTIVE 0,
         KCmd.mk 0 2 64 0 CXL_CMD_STATUS_ACTIVE 0] ∧
    List.map KCmd.id (sendCommand (sendCommand [] 1 0 0) 2 64 0) = [0, 0] ∧
    ¬ List.Pairwise (fun i j : Nat => i < j)
        (List.map KCmd.id (sendCommand (sendCommand [] 1 0 0) 2 64 0)) := by
  refine ⟨by decide, by decide, by decide⟩

/-- `CXLDeviceDriver::wait_for_response` (cxl_system.cpp lines 294-322),
seen through the stream of query results: `trace n` is the
`(status, result)` pair returned by the `n`-th `CXL_MEM_QUERY_CMD` ioctl.
The loop exits only when the status leaves ACTIVE, usleeps 10µs between
polls, and returns `status == CXL_CMD_STATUS_COMPLETED`; `fuel` bounds
the number of iterations we unfold (the real loop has no bound and no
timeout parameter). -/
def waitPoll (trace : Nat → Nat × Nat) : Nat → Nat → Option (Bool × Nat × Nat)
  | _, 0 => none
  | i, fuel + 1 =>
    if (trace i).1 ≠ CXL_CMD_STATUS_ACTIVE then
      some (decide ((trace i).1 = CXL_CMD_STATUS_COMPLETED), (trace i).1, (trace i).2)
    else waitPoll trace (i + 1) fuel

/-- The loop never returns, whatever the iteration bound. -/
def waitDiverges (trace : Nat → Nat × Nat) : Prop :=
  ∀ i fuel, waitPoll trace i fuel = none

/-- Claim C9 is refuted: `wait_for_response` takes no timeout and, on a
command whose status never leaves ACTIVE, never returns — there is no
iteration count after which it has produced a result, so no `TimedOut`
is possible. -/
theorem C9_counterexample :
    waitDiverges (fun _ => (CXL_CMD_STATUS_ACTIVE, 0)) := by
  intro i fuel
  induction fuel generalizing i with
  | zero => rfl
  | succ n ih =>
    rw [waitPoll, if_neg (by simp)]
    exact ih (i + 1)

/-- Claim C9 (amended): `wait_for_response` polls repeatedly and returns
as soon as the observed status leaves ACTIVE, yielding that first
terminal (status, result) pair and success exactly when the status is
COMPLETED; it has no timeout (on a never-completing command it diverges,
see the counterexample), and a query that observes ACTIVE leaves the
command list unchanged, so an unfinished command is not lost. -/
theorem C9_wait_amended :
    (∀ (trace : Nat → Nat × Nat) (n fuel : Nat),
        (∀ m, m < n → (trace m).1 = CXL_CMD_STATUS_ACTIVE) →
        (trace n).1 ≠ CXL_CMD_STATUS_ACTIVE → n < fuel →
        waitPoll trace 0 fuel
          = some (decide ((trace n).1 = CXL_CMD_STATUS_COMPLETED),
              (trace n).1, (trace n).2)) ∧
    (∀ (l : List KCmd) (qid : Nat),
        ((kernQuery l qid).1).1 = CXL_CMD_STATUS_ACTIVE → (kernQuery l qid).2 = l) := by
  constructor
  · have haux : ∀ (n : Nat) (trace : Nat → Nat × Nat) (i fuel : Nat),
        (∀ m, m < n → (trace (i + m)).1 = CXL_CMD_STATUS_ACTIVE) →
        (trace (i + n)).1 ≠ CXL_CMD_STATUS_ACTIVE → n < fuel →
        waitPoll trace i fuel
          = some (decide ((trace (i + n)).1 = CXL_CMD_STATUS_COMPLETED),
              (trace (i + n)).1, (trace (i + n)).2) := by
      intro n
      induction n with
      | zero =>
        intro trace i fuel _ hterm hfuel
        rcases fuel with _ | f
        · omega
        · rw [waitPoll, if_pos (by simpa using hterm)]
          simp
      | succ m ihm =>
        intro trace i fuel hact hterm hfuel
        rcases fuel with _ | f
        · omega
        · rw [waitPoll, if_neg (by have := hact 0 (by omega); simpa using this)]
          have heq : i + (m + 1) = i + 1 + m := by omega
          rw [heq] at hterm ⊢
          exact ihm trace (i + 1) f
            (fun j hj => by
              have heq2 : i + 1 + j = i + (j + 1) := by omega
              rw [heq2]
              exact hact (j + 1) (by omega))
            hterm (by omega)
    intro trace n fuel hact hterm hfuel
    have := haux n trace 0 fuel (fun m hm => by simpa using hact m hm)
      (by simpa using hterm) hfuel
    simpa using this
  · intro l
    induction l with
    | nil =>
      intro qid h
      simp [kernQuery, CXL_CMD_STATUS_INVALID, CXL_CMD_STATUS_ACTIVE] at h
    | cons c rest ih =>
      intro qid h
      by_cases hc : c.id = qid
      · by_cases hst : c.status ≠ CXL_CMD_STATUS_ACTIVE
        · rw [kernQuery, if_pos hc, if_pos hst] at h
          exact absurd h hst
        · rw [kernQuery, if_pos hc, if_neg hst]
      · rw [kernQuery, if_neg hc] at h ⊢
        rw [ih qid h]

theorem C9_wait_amended_witness :
    waitPoll (fun n => if n < 2 then (CXL_CMD_STATUS_ACTIVE, 0)
        else (CXL_CMD_STATUS_COMPLETED, 42)) 0 3
      = some (true, CXL_CMD_STATUS_COMPLETED, 42) ∧
    (kernQuery [KCmd.mk 0 1 0 0 0 0] 0).2 = [KCmd.mk 0 1 0 0 0 0] := by
  have h1 := C9_wait_amended.1
    (fun n => if n < 2 then (CXL_CMD_STATUS_ACTIVE, 0) else (CXL_CMD_STATUS_COMPLETED, 42))
    2 3 (by intro m hm; simp [hm]) (by simp [CXL_CMD_STATUS_ACTIVE, CXL_CMD_STATUS_COMPLETED])
    (by omega)
  have h2 := C9_wait_amended.2 [KCmd.mk 0 1 0 0 0 0] 0 (by decide)
  refine ⟨?_, h2⟩
  rw [h1]
  simp [CXL_CMD_STATUS_COMPLETED]
